import Mathlib

set_option maxHeartbeats 1000000
set_option maxRecDepth 100000

/-!
Verification development for the R_DNS recursive DNS resolver.

The Rust sources are shallowly embedded into Lean:
* machine integers (`u8`, `u16`, `u32`, `usize`) become `Nat`, with the
  truncating casts of the source made explicit (`% 256`, `&&& 0xFF`, ...);
* Rust `String` values become `RStr := List Nat`, the sequence of Unicode
  code points of the string (all verified properties involve ASCII data,
  where one `char` is one byte on the wire; multi-byte UTF-8 sequences are
  not reconstructed by the lossy decoder model);
* fallible operations (`std::io::Result`) become `Except DnsError`;
  operations that mutate a buffer and can fail return the error flag
  together with the buffer state reached so far, mirroring `&mut self`;
* `Vec::pop`/indexing/`unwrap` panics become `Option`/dedicated outcomes.
-/

/-- Rust strings, modelled as their sequence of Unicode code points. -/
abbrev RStr := List Nat

instance exceptDecidableEq {ε α : Type} [DecidableEq ε] [DecidableEq α] :
    DecidableEq (Except ε α) := fun x y =>
  match x, y with
  | .ok a, .ok b =>
    if h : a = b then isTrue (by rw [h])
    else isFalse (fun hc => by injection hc; contradiction)
  | .error a, .error b =>
    if h : a = b then isTrue (by rw [h])
    else isFalse (fun hc => by injection hc; contradiction)
  | .ok _, .error _ => isFalse (fun hc => by injection hc)
  | .error _, .ok _ => isFalse (fun hc => by injection hc)

/-- Error values produced by the codec (`std::io::Error` messages
    "Buffer overflow" and "Limit of 5 jumps exceeded" in the source).
    `outOfFuel` is an artifact of the fuel-based embedding of the
    `read_qname` loop; it is unreachable for the fuel bound used. -/
inductive DnsError where
  | bufferOverflow
  | malformedName
  | outOfFuel
deriving DecidableEq, Repr

/-- ASCII lowercasing of one code point (the effect of Rust
    `str::to_lowercase` on ASCII data). -/
def asciiLower (c : Nat) : Nat := if 65 ≤ c ∧ c ≤ 90 then c + 32 else c

/-- Effect of `String::from_utf8_lossy` followed by `to_lowercase` on one
    byte: ASCII bytes map to their (lowercased) code point, other bytes to
    U+FFFD.  (Well-formed multi-byte UTF-8 sequences are not reconstructed;
    every property proved below concerns ASCII data only.) -/
def lossyLower (b : Nat) : Nat :=
  if 65 ≤ b ∧ b ≤ 90 then b + 32 else if b < 128 then b else 0xFFFD

/-- `ByteBuffer` from `src/utils/byte_buffer.rs`: a fixed 512-byte frame
    (`buffer : [u8; 512]`) with a cursor.  The length-512 invariant is
    carried as a hypothesis where needed. -/
structure ByteBuffer where
  buffer : List Nat
  position : Nat
deriving DecidableEq, Repr

def ByteBuffer.new : ByteBuffer := ⟨List.replicate 512 0, 0⟩

def ByteBuffer.step (bb : ByteBuffer) (steps : Nat) : ByteBuffer :=
  ⟨bb.buffer, bb.position + steps⟩

def ByteBuffer.seek (bb : ByteBuffer) (position : Nat) : ByteBuffer :=
  ⟨bb.buffer, position⟩

/-- `ByteBuffer::read`. -/
def ByteBuffer.read (bb : ByteBuffer) : Except DnsError (Nat × ByteBuffer) :=
  if bb.position ≥ 512 then .error .bufferOverflow
  else .ok (bb.buffer.getD bb.position 0, bb.step 1)

/-- `ByteBuffer::get`. -/
def ByteBuffer.get (bb : ByteBuffer) (position : Nat) : Except DnsError Nat :=
  if position ≥ 512 then .error .bufferOverflow
  else .ok (bb.buffer.getD position 0)

/-- `ByteBuffer::get_range_` (half-open slice `buffer[start..end]`). -/
def ByteBuffer.get_range_ (bb : ByteBuffer) (start stop : Nat) :
    Except DnsError (List Nat) :=
  if start ≥ 512 ∨ stop ≥ 512 then .error .bufferOverflow
  else .ok ((bb.buffer.drop start).take (stop - start))

/-- `ByteBuffer::get_range`. -/
def ByteBuffer.get_range (bb : ByteBuffer) (start len : Nat) :
    Except DnsError (List Nat) :=
  bb.get_range_ start (start + len)

/-- `ByteBuffer::read_u16`: big-endian `(read()? << 8) | read()?`. -/
def ByteBuffer.read_u16 (bb : ByteBuffer) : Except DnsError (Nat × ByteBuffer) :=
  match bb.read with
  | .error e => .error e
  | .ok (hi, bb1) =>
    match bb1.read with
    | .error e => .error e
    | .ok (lo, bb2) => .ok ((hi <<< 8) ||| lo, bb2)

/-- `ByteBuffer::read_u32`. -/
def ByteBuffer.read_u32 (bb : ByteBuffer) : Except DnsError (Nat × ByteBuffer) :=
  match bb.read with
  | .error e => .error e
  | .ok (b0, bb1) =>
    match bb1.read with
    | .error e => .error e
    | .ok (b1, bb2) =>
      match bb2.read with
      | .error e => .error e
      | .ok (b2, bb3) =>
        match bb3.read with
        | .error e => .error e
        | .ok (b3, bb4) =>
          .ok ((((b0 <<< 24) ||| (b1 <<< 16)) ||| (b2 <<< 8)) ||| (b3 <<< 0), bb4)

/-- Loop body of `ByteBuffer::read_qname`, with explicit fuel (the Rust
    loop terminates because at most 5 pointer jumps are allowed and the
    position otherwise strictly increases inside the 512-byte frame, so
    4096 iterations always suffice).  `position`, `jump`, `jumps`, the
    accumulated output and the current delimiter are the loop-local
    variables of the source. -/
def ByteBuffer.readQnameGo (bb : ByteBuffer) :
    Nat → Nat → Bool → Nat → RStr → RStr → Except DnsError (RStr × ByteBuffer)
  | 0, _, _, _, _, _ => .error .outOfFuel
  | fuel + 1, position, jump, jumps, acc, delim =>
    match bb.get position with
    | .error e => .error e
    | .ok len =>
      if jumps > 5 then .error .malformedName
      else if len &&& 0xC0 = 0xC0 then
        let bb1 := if !jump then bb.seek (position + 2) else bb
        match bb1.get (position + 1) with
        | .error e => .error e
        | .ok b2 =>
          bb1.readQnameGo fuel (((len ^^^ 0xC0) <<< 8) ||| b2) true (jumps + 1) acc delim
      else
        if len = 0 then
          .ok (acc, if !jump then bb.seek (position + 1) else bb)
        else
          match bb.get_range (position + 1) len with
          | .error e => .error e
          | .ok bytes =>
            bb.readQnameGo fuel (position + 1 + len) jump jumps
              (acc ++ delim ++ bytes.map lossyLower) [46]

/-- `ByteBuffer::read_qname`.  Every call site of the source passes a
    freshly created (empty) output string, so the accumulator starts
    empty. -/
def ByteBuffer.read_qname (bb : ByteBuffer) : Except DnsError (RStr × ByteBuffer) :=
  bb.readQnameGo 4096 bb.position false 0 [] []

/-- `ByteBuffer::write`.  On failure the buffer is unchanged; the pair
    carries the state reached, mirroring `&mut self`. -/
def ByteBuffer.write (bb : ByteBuffer) (val : Nat) :
    Except DnsError Unit × ByteBuffer :=
  if bb.position ≥ 512 then (.error .bufferOverflow, bb)
  else (.ok (), ⟨bb.buffer.set bb.position val, bb.position + 1⟩)

/-- `ByteBuffer::write_u8`. -/
def ByteBuffer.write_u8 (bb : ByteBuffer) (val : Nat) :
    Except DnsError Unit × ByteBuffer :=
  bb.write val

/-- `ByteBuffer::write_u16`: `write((val >> 8) as u8)?; write((val & 0xFF) as u8)?`. -/
def ByteBuffer.write_u16 (bb : ByteBuffer) (val : Nat) :
    Except DnsError Unit × ByteBuffer :=
  match bb.write ((val >>> 8) % 256) with
  | (.error e, bb1) => (.error e, bb1)
  | (.ok _, bb1) => bb1.write (val &&& 0xFF)

/-- `ByteBuffer::write_u32`. -/
def ByteBuffer.write_u32 (bb : ByteBuffer) (val : Nat) :
    Except DnsError Unit × ByteBuffer :=
  match bb.write ((val >>> 24) &&& 0xFF) with
  | (.error e, bb1) => (.error e, bb1)
  | (.ok _, bb1) =>
    match bb1.write ((val >>> 16) &&& 0xFF) with
    | (.error e, bb2) => (.error e, bb2)
    | (.ok _, bb2) =>
      match bb2.write ((val >>> 8) &&& 0xFF) with
      | (.error e, bb3) => (.error e, bb3)
      | (.ok _, bb3) => bb3.write (val &&& 0xFF)

/-- Rust `str::split('.')`: splits at every dot, keeping empty segments
    (so the result is never the empty list). -/
def splitDots : RStr → List RStr
  | [] => [[]]
  | c :: rest =>
    if c = 46 then [] :: splitDots rest
    else
      match splitDots rest with
      | r :: rs => (c :: r) :: rs
      | [] => [[c]]

/-- Inner loop of `write_qname` over the characters of one label:
    `write_u8(c as u8)?`. -/
def ByteBuffer.writeChars : RStr → ByteBuffer → Except DnsError Unit × ByteBuffer
  | [], bb => (.ok (), bb)
  | c :: cs, bb =>
    match bb.write_u8 (c % 256) with
    | (.error e, bb1) => (.error e, bb1)
    | (.ok _, bb1) => ByteBuffer.writeChars cs bb1

/-- Outer loop of `write_qname` over the dot-separated labels:
    `write_u8(part.len() as u8)?` then the characters. -/
def ByteBuffer.writeParts : List RStr → ByteBuffer → Except DnsError Unit × ByteBuffer
  | [], bb => (.ok (), bb)
  | part :: rest, bb =>
    match bb.write_u8 (part.length % 256) with
    | (.error e, bb1) => (.error e, bb1)
    | (.ok _, bb1) =>
      match ByteBuffer.writeChars part bb1 with
      | (.error e, bb2) => (.error e, bb2)
      | (.ok _, bb2) => ByteBuffer.writeParts rest bb2

/-- `ByteBuffer::write_qname`. -/
def ByteBuffer.write_qname (bb : ByteBuffer) (qname : RStr) :
    Except DnsError Unit × ByteBuffer :=
  match ByteBuffer.writeParts (splitDots qname) bb with
  | (.error e, bb1) => (.error e, bb1)
  | (.ok _, bb1) => bb1.write_u8 0

/-- `ByteBuffer::set`. -/
def ByteBuffer.set (bb : ByteBuffer) (position val : Nat) :
    Except DnsError Unit × ByteBuffer :=
  if position ≥ 512 then (.error .bufferOverflow, bb)
  else (.ok (), ⟨bb.buffer.set position val, bb.position⟩)

/-- `ByteBuffer::set_u16`. -/
def ByteBuffer.set_u16 (bb : ByteBuffer) (position val : Nat) :
    Except DnsError Unit × ByteBuffer :=
  match bb.set position ((val >>> 8) % 256) with
  | (.error e, bb1) => (.error e, bb1)
  | (.ok _, bb1) => bb1.set (position + 1) (val &&& 0xFF)

/-- `ByteBuffer::from_buffer`: copies the bytes into a fresh frame via
    `set(i, val).unwrap()`; `none` models the panic when more than 512
    bytes are supplied. -/
def ByteBuffer.fromBytes (bytes : List Nat) : Option ByteBuffer :=
  if bytes.length ≤ 512 then
    some ⟨bytes ++ List.replicate (512 - bytes.length) 0, 0⟩
  else none

/-! ## Codec types (`src/utils/…`) -/

/-- Modelled from the spec: `src/utils/result_code.rs` is not among the
    provided sources (only its users are).  Spec §3: "ResultCode —
    enumeration of the 4-bit DNS RCODE: NOERROR(0), FORMERR(1), SERVFAIL(2),
    NXDOMAIN(3), NOTIMP(4), REFUSED(5). Unknown values map to NOERROR on
    decode." -/
inductive ResultCode where
  | NOERROR
  | FORMERR
  | SERVFAIL
  | NXDOMAIN
  | NOTIMP
  | REFUSED
deriving DecidableEq, Repr

/-- Numeric value of a `ResultCode` (`self.rescode as u8` in the source). -/
def ResultCode.to_num : ResultCode → Nat
  | .NOERROR => 0
  | .FORMERR => 1
  | .SERVFAIL => 2
  | .NXDOMAIN => 3
  | .NOTIMP => 4
  | .REFUSED => 5

/-- Modelled from the spec (§3): decode of the 4-bit RCODE; unknown values
    map to NOERROR. -/
def ResultCode.from_num (n : Nat) : ResultCode :=
  if n = 1 then .FORMERR
  else if n = 2 then .SERVFAIL
  else if n = 3 then .NXDOMAIN
  else if n = 4 then .NOTIMP
  else if n = 5 then .REFUSED
  else .NOERROR

/-- Modelled from the spec: `src/utils/query_type.rs` is not among the
    provided sources.  Spec §3: "QueryType — tagged variant: A(1), NS(2),
    CNAME(5), MX(15), AAAA(28), UNKNOWN(n). Round-trips through a 16-bit
    numeric code; unknown numeric values map to UNKNOWN(n)." -/
inductive QueryType where
  | UNKNOWN (n : Nat)
  | A
  | NS
  | CNAME
  | MX
  | AAAA
deriving DecidableEq, Repr

def QueryType.to_num : QueryType → Nat
  | .UNKNOWN n => n
  | .A => 1
  | .NS => 2
  | .CNAME => 5
  | .MX => 15
  | .AAAA => 28

def QueryType.from_num (n : Nat) : QueryType :=
  if n = 1 then .A
  else if n = 2 then .NS
  else if n = 5 then .CNAME
  else if n = 15 then .MX
  else if n = 28 then .AAAA
  else .UNKNOWN n

/-- `DnsHeader` (`src/utils/header.rs`). -/
structure DnsHeader where
  id : Nat
  recursion_desired : Bool
  truncated_message : Bool
  authoritative_answer : Bool
  opcode : Nat
  response : Bool
  rescode : ResultCode
  checking_disabled : Bool
  authed_data : Bool
  z : Bool
  recursion_available : Bool
  questions : Nat
  answers : Nat
  authoritative_entries : Nat
  resource_entries : Nat
deriving DecidableEq, Repr

def DnsHeader.new : DnsHeader :=
  ⟨0, false, false, false, 0, false, .NOERROR, false, false, false, false, 0, 0, 0, 0⟩

/-- The first flag byte assembled by `DnsHeader::write` (variable `a`). -/
def DnsHeader.flagA (h : DnsHeader) : Nat :=
  ((((if h.recursion_desired then 1 <<< 0 else 0) |||
     (if h.truncated_message then 1 <<< 1 else 0)) |||
     (if h.authoritative_answer then 1 <<< 2 else 0)) |||
     (h.opcode <<< 3)) |||
     (if h.response then 1 <<< 7 else 0)

/-- The second flag byte assembled by `DnsHeader::write` (variable `b`). -/
def DnsHeader.flagB (h : DnsHeader) : Nat :=
  (((h.rescode.to_num |||
     (if h.checking_disabled then 1 <<< 4 else 0)) |||
     (if h.authed_data then 1 <<< 5 else 0)) |||
     (if h.z then 1 <<< 6 else 0)) |||
     (if h.recursion_available then 1 <<< 7 else 0)

/-- `DnsHeader::write`.  The source discards the result of every
    sub-write (`let _ = …`) and always returns `Ok`, so the model returns
    the buffer state only. -/
def DnsHeader.write (h : DnsHeader) (bb : ByteBuffer) : ByteBuffer :=
  let bb1 := (bb.write_u16 h.id).2
  let bb2 := (bb1.write_u16 ((h.flagA <<< 8) ||| h.flagB)).2
  let bb3 := (bb2.write_u16 h.questions).2
  let bb4 := (bb3.write_u16 h.answers).2
  let bb5 := (bb4.write_u16 h.authoritative_entries).2
  (bb5.write_u16 h.resource_entries).2

/-- `DnsHeader::read` (the header being overwritten starts from any state;
    every field is assigned, so the model returns a fresh header). -/
def DnsHeader.read (bb : ByteBuffer) : Except DnsError (DnsHeader × ByteBuffer) :=
  match bb.read_u16 with
  | .error e => .error e
  | .ok (idv, bb1) =>
    match bb1.read_u16 with
    | .error e => .error e
    | .ok (flags, bb2) =>
      let a := (flags >>> 8) % 256
      let b := (flags &&& 0xFF) % 256
      match bb2.read_u16 with
      | .error e => .error e
      | .ok (questions, bb3) =>
        match bb3.read_u16 with
        | .error e => .error e
        | .ok (answers, bb4) =>
          match bb4.read_u16 with
          | .error e => .error e
          | .ok (authoritative_entries, bb5) =>
            match bb5.read_u16 with
            | .error e => .error e
            | .ok (resource_entries, bb6) =>
              .ok ({ id := idv,
                     recursion_desired := decide (a &&& (1 <<< 0) > 0),
                     truncated_message := decide (a &&& (1 <<< 1) > 0),
                     authoritative_answer := decide (a &&& (1 <<< 2) > 0),
                     opcode := (a >>> 3) &&& 0x0F,
                     response := decide (a &&& (1 <<< 7) > 0),
                     rescode := ResultCode.from_num (b &&& 0x0F),
                     checking_disabled := decide (b &&& (1 <<< 4) > 0),
                     authed_data := decide (b &&& (1 <<< 5) > 0),
                     z := decide (b &&& (1 <<< 6) > 0),
                     recursion_available := decide (b &&& (1 <<< 7) > 0),
                     questions := questions,
                     answers := answers,
                     authoritative_entries := authoritative_entries,
                     resource_entries := resource_entries }, bb6)

/-- `DnsQuestion` (`src/utils/question.rs`). -/
structure DnsQuestion where
  name : RStr
  qtype : QueryType
deriving DecidableEq, Repr

/-- `DnsQuestion::read`.  All call sites read into a question whose name is
    the empty string, so the name is exactly what `read_qname` produces. -/
def DnsQuestion.read (bb : ByteBuffer) : Except DnsError (DnsQuestion × ByteBuffer) :=
  match bb.read_qname with
  | .error e => .error e
  | .ok (name, bb1) =>
    match bb1.read_u16 with
    | .error e => .error e
    | .ok (t, bb2) =>
      match bb2.read_u16 with
      | .error e => .error e
      | .ok (_, bb3) => .ok (⟨name, QueryType.from_num t⟩, bb3)

/-- `DnsQuestion::write` (all sub-write errors discarded in the source). -/
def DnsQuestion.write (q : DnsQuestion) (bb : ByteBuffer) : ByteBuffer :=
  let bb1 := (bb.write_qname q.name).2
  let bb2 := (bb1.write_u16 q.qtype.to_num).2
  (bb2.write_u16 1).2

/-- `DnsRecord` (`src/utils/record.rs`).  `Ipv4Addr` is its 32-bit value,
    `Ipv6Addr` its 16 octets. -/
inductive DnsRecord where
  | UNKNOWN (domain : RStr) (qtype : Nat) (data_len : Nat) (ttl : Nat)
  | A (domain : RStr) (addr : Nat) (ttl : Nat)
  | NS (domain : RStr) (ns : RStr) (ttl : Nat)
  | CNAME (domain : RStr) (cname : RStr) (ttl : Nat)
  | MX (domain : RStr) (preference : Nat) (exchange : RStr) (ttl : Nat)
  | AAAA (domain : RStr) (addr : List Nat) (ttl : Nat)
deriving DecidableEq, Repr

/-- The `for i in 0..16 { addr[i] = buffer.read()? }` loop of the AAAA
    read arm. -/
def ByteBuffer.readBytes : Nat → ByteBuffer → Except DnsError (List Nat × ByteBuffer)
  | 0, bb => .ok ([], bb)
  | n + 1, bb =>
    match bb.read with
    | .error e => .error e
    | .ok (b, bb1) =>
      match ByteBuffer.readBytes n bb1 with
      | .error e => .error e
      | .ok (bs, bb2) => .ok (b :: bs, bb2)

/-- `DnsRecord::read`. -/
def DnsRecord.read (bb : ByteBuffer) : Except DnsError (DnsRecord × ByteBuffer) :=
  match bb.read_qname with
  | .error e => .error e
  | .ok (domain, bb1) =>
    match bb1.read_u16 with
    | .error e => .error e
    | .ok (qtype, bb2) =>
      match bb2.read_u16 with
      | .error e => .error e
      | .ok (_, bb3) =>
        match bb3.read_u32 with
        | .error e => .error e
        | .ok (ttl, bb4) =>
          match bb4.read_u16 with
          | .error e => .error e
          | .ok (data_len, bb5) =>
            if qtype = 1 then
              match bb5.read_u32 with
              | .error e => .error e
              | .ok (addr, bb6) => .ok (.A domain addr ttl, bb6)
            else if qtype = 2 then
              match bb5.read_qname with
              | .error e => .error e
              | .ok (ns, bb6) => .ok (.NS domain ns ttl, bb6)
            else if qtype = 5 then
              match bb5.read_qname with
              | .error e => .error e
              | .ok (cname, bb6) => .ok (.CNAME domain cname ttl, bb6)
            else if qtype = 15 then
              match bb5.read_u16 with
              | .error e => .error e
              | .ok (preference, bb6) =>
                match bb6.read_qname with
                | .error e => .error e
                | .ok (exchange, bb7) => .ok (.MX domain preference exchange ttl, bb7)
            else if qtype = 28 then
              match ByteBuffer.readBytes 16 bb5 with
              | .error e => .error e
              | .ok (addr, bb6) => .ok (.AAAA domain addr ttl, bb6)
            else
              .ok (.UNKNOWN domain qtype data_len ttl, bb5)

/-- The `for i in 0..16 { write_u8(addr[i]) }` loop of the AAAA write arm;
    the record's address field is exactly its 16-octet array, so the loop
    writes those octets in order. -/
def ByteBuffer.writeList : List Nat → ByteBuffer → ByteBuffer
  | [], bb => bb
  | b :: bs, bb => ByteBuffer.writeList bs (bb.write_u8 b).2

/-- `DnsRecord::write`: UNKNOWN records are skipped (diagnostic print
    only); variable-length records reserve a zero RDLENGTH and back-patch
    it with `position - (start + 2)`.  All sub-write errors are discarded
    in the source (`let _ = …`), and the function returns `()`. -/
def DnsRecord.write (r : DnsRecord) (bb : ByteBuffer) : ByteBuffer :=
  match r with
  | .UNKNOWN _ _ _ _ => bb
  | .A domain addr ttl =>
    let bb1 := (bb.write_qname domain).2
    let bb2 := (bb1.write_u16 QueryType.A.to_num).2
    let bb3 := (bb2.write_u16 1).2
    let bb4 := (bb3.write_u32 ttl).2
    let bb5 := (bb4.write_u16 4).2
    (bb5.write_u32 addr).2
  | .NS domain ns ttl =>
    let bb1 := (bb.write_qname domain).2
    let bb2 := (bb1.write_u16 QueryType.NS.to_num).2
    let bb3 := (bb2.write_u16 1).2
    let bb4 := (bb3.write_u32 ttl).2
    let start := bb4.position
    let bb5 := (bb4.write_u16 0).2
    let bb6 := (bb5.write_qname ns).2
    let len := bb6.position - (start + 2)
    (bb6.set_u16 start len).2
  | .CNAME domain cname ttl =>
    let bb1 := (bb.write_qname domain).2
    let bb2 := (bb1.write_u16 QueryType.CNAME.to_num).2
    let bb3 := (bb2.write_u16 1).2
    let bb4 := (bb3.write_u32 ttl).2
    let start := bb4.position
    let bb5 := (bb4.write_u16 0).2
    let bb6 := (bb5.write_qname cname).2
    let len := bb6.position - (start + 2)
    (bb6.set_u16 start len).2
  | .MX domain preference exchange ttl =>
    let bb1 := (bb.write_qname domain).2
    let bb2 := (bb1.write_u16 QueryType.MX.to_num).2
    let bb3 := (bb2.write_u16 1).2
    let bb4 := (bb3.write_u32 ttl).2
    let start := bb4.position
    let bb5 := (bb4.write_u16 0).2
    let bb6 := (bb5.write_u16 preference).2
    let bb7 := (bb6.write_qname exchange).2
    let len := bb7.position - (start + 2)
    (bb7.set_u16 start len).2
  | .AAAA domain addr ttl =>
    let bb1 := (bb.write_qname domain).2
    let bb2 := (bb1.write_u16 QueryType.AAAA.to_num).2
    let bb3 := (bb2.write_u16 1).2
    let bb4 := (bb3.write_u32 ttl).2
    let bb5 := (bb4.write_u16 16).2
    ByteBuffer.writeList addr bb5

/-- `DnsPacket` (`src/utils/packet.rs`). -/
structure DnsPacket where
  header : DnsHeader
  questions : List DnsQuestion
  answers : List DnsRecord
  authorities : List DnsRecord
  resources : List DnsRecord
deriving DecidableEq, Repr

def DnsPacket.new : DnsPacket := ⟨DnsHeader.new, [], [], [], []⟩

/-- The `for _ in 0..header.questions` decode loop. -/
def readQuestions : Nat → ByteBuffer → Except DnsError (List DnsQuestion × ByteBuffer)
  | 0, bb => .ok ([], bb)
  | n + 1, bb =>
    match DnsQuestion.read bb with
    | .error e => .error e
    | .ok (q, bb1) =>
      match readQuestions n bb1 with
      | .error e => .error e
      | .ok (qs, bb2) => .ok (q :: qs, bb2)

/-- The record-section decode loops of `DnsPacket::from_buffer`. -/
def readRecords : Nat → ByteBuffer → Except DnsError (List DnsRecord × ByteBuffer)
  | 0, bb => .ok ([], bb)
  | n + 1, bb =>
    match DnsRecord.read bb with
    | .error e => .error e
    | .ok (r, bb1) =>
      match readRecords n bb1 with
      | .error e => .error e
      | .ok (rs, bb2) => .ok (r :: rs, bb2)

/-- `DnsPacket::from_buffer`. -/
def DnsPacket.from_buffer (bb : ByteBuffer) : Except DnsError DnsPacket :=
  match DnsHeader.read bb with
  | .error e => .error e
  | .ok (header, bb1) =>
    match readQuestions header.questions bb1 with
    | .error e => .error e
    | .ok (questions, bb2) =>
      match readRecords header.answers bb2 with
      | .error e => .error e
      | .ok (answers, bb3) =>
        match readRecords header.authoritative_entries bb3 with
        | .error e => .error e
        | .ok (authorities, bb4) =>
          match readRecords header.resource_entries bb4 with
          | .error e => .error e
          | .ok (resources, bb5) =>
            .ok ⟨header, questions, answers, authorities, resources⟩

/-- The question-section encode loop of `DnsPacket::write`. -/
def writeQuestions : List DnsQuestion → ByteBuffer → ByteBuffer
  | [], bb => bb
  | q :: qs, bb => writeQuestions qs (q.write bb)

/-- The record-section encode loops of `DnsPacket::write`. -/
def writeRecords : List DnsRecord → ByteBuffer → ByteBuffer
  | [], bb => bb
  | r :: rs, bb => writeRecords rs (r.write bb)

/-- `DnsPacket::write` (always returns `Ok` in the source; sub-write
    errors are discarded). -/
def DnsPacket.write (p : DnsPacket) (bb : ByteBuffer) : ByteBuffer :=
  let bb1 := p.header.write bb
  let bb2 := writeQuestions p.questions bb1
  let bb3 := writeRecords p.answers bb2
  let bb4 := writeRecords p.authorities bb3
  writeRecords p.resources bb4

/-! ## Specification-side definitions for the round-trip claims

`encX` is the byte string a successful `X::write` deposits in the frame;
the writer lemmas below derive it from the source-modelled writers. -/

/-- Bytes deposited by `write_u16`. -/
def u16Bytes (v : Nat) : List Nat := [(v >>> 8) % 256, v &&& 0xFF]

/-- Bytes deposited by `write_u32`. -/
def u32Bytes (v : Nat) : List Nat :=
  [(v >>> 24) &&& 0xFF, (v >>> 16) &&& 0xFF, (v >>> 8) &&& 0xFF, v &&& 0xFF]

/-- Bytes deposited by the label loop of `write_qname` (length byte, then
    the label's characters, for each dot-separated part). -/
def encPartsCore : List RStr → List Nat
  | [] => []
  | part :: rest => (part.length % 256) :: (part.map (· % 256) ++ encPartsCore rest)

/-- Bytes deposited by `write_qname` (labels plus terminating zero). -/
def encQname (s : RStr) : List Nat := encPartsCore (splitDots s) ++ [0]

/-- Bytes deposited by `DnsHeader::write`. -/
def encHeader (h : DnsHeader) : List Nat :=
  u16Bytes h.id ++ u16Bytes ((h.flagA <<< 8) ||| h.flagB) ++ u16Bytes h.questions ++
    u16Bytes h.answers ++ u16Bytes h.authoritative_entries ++
    u16Bytes h.resource_entries

/-- Bytes deposited by `DnsQuestion::write`. -/
def encQuestion (q : DnsQuestion) : List Nat :=
  encQname q.name ++ u16Bytes q.qtype.to_num ++ u16Bytes 1

/-- Bytes deposited by `DnsRecord::write` (after the RDLENGTH back-patch;
    UNKNOWN records are skipped). -/
def encRecord : DnsRecord → List Nat
  | .UNKNOWN _ _ _ _ => []
  | .A domain addr ttl =>
    encQname domain ++ u16Bytes 1 ++ u16Bytes 1 ++ u32Bytes ttl ++
      u16Bytes 4 ++ u32Bytes addr
  | .NS domain ns ttl =>
    encQname domain ++ u16Bytes 2 ++ u16Bytes 1 ++ u32Bytes ttl ++
      u16Bytes (encQname ns).length ++ encQname ns
  | .CNAME domain cname ttl =>
    encQname domain ++ u16Bytes 5 ++ u16Bytes 1 ++ u32Bytes ttl ++
      u16Bytes (encQname cname).length ++ encQname cname
  | .MX domain preference exchange ttl =>
    encQname domain ++ u16Bytes 15 ++ u16Bytes 1 ++ u32Bytes ttl ++
      u16Bytes (2 + (encQname exchange).length) ++ u16Bytes preference ++
      encQname exchange
  | .AAAA domain addr ttl =>
    encQname domain ++ u16Bytes 28 ++ u16Bytes 1 ++ u32Bytes ttl ++
      u16Bytes 16 ++ addr

/-- Concatenated encodings of a section. -/
def encList {α : Type} (f : α → List Nat) (l : List α) : List Nat :=
  (l.map f).join

/-- Bytes deposited by `DnsPacket::write`. -/
def encPacket (p : DnsPacket) : List Nat :=
  encHeader p.header ++ encList encQuestion p.questions ++
    encList encRecord p.answers ++ encList encRecord p.authorities ++
    encList encRecord p.resources

/-- ASCII lowercasing of a name (what the decoder applies to qnames). -/
def lowerStr (s : RStr) : RStr := s.map asciiLower

def DnsQuestion.lower (q : DnsQuestion) : DnsQuestion := ⟨lowerStr q.name, q.qtype⟩

def DnsRecord.lower : DnsRecord → DnsRecord
  | .UNKNOWN d q dl t => .UNKNOWN (lowerStr d) q dl t
  | .A d a t => .A (lowerStr d) a t
  | .NS d n t => .NS (lowerStr d) (lowerStr n) t
  | .CNAME d c t => .CNAME (lowerStr d) (lowerStr c) t
  | .MX d p e t => .MX (lowerStr d) p (lowerStr e) t
  | .AAAA d a t => .AAAA (lowerStr d) a t

/-- A packet with every qname lowercased — the normalization modulo which
    the round-trip law is stated. -/
def DnsPacket.lowerNames (p : DnsPacket) : DnsPacket :=
  ⟨p.header, p.questions.map DnsQuestion.lower, p.answers.map DnsRecord.lower,
   p.authorities.map DnsRecord.lower, p.resources.map DnsRecord.lower⟩

/-- A valid qname: every dot-separated label has 1..63 ASCII characters
    (spec §8 round-trip law 3). -/
def ValidQname (s : RStr) : Prop :=
  ∀ part ∈ splitDots s, 1 ≤ part.length ∧ part.length ≤ 63 ∧ ∀ c ∈ part, c < 128

/-- Field ranges of a well-formed header: 16-bit id and counts, 4-bit
    opcode. -/
def DnsHeader.WF (h : DnsHeader) : Prop :=
  h.id < 65536 ∧ h.opcode < 16 ∧ h.questions < 65536 ∧ h.answers < 65536 ∧
    h.authoritative_entries < 65536 ∧ h.resource_entries < 65536

/-- A well-formed question: valid name and a canonical 16-bit qtype (one
    that survives the numeric round trip, ruling out e.g. `UNKNOWN 1`). -/
def DnsQuestion.WF (q : DnsQuestion) : Prop :=
  ValidQname q.name ∧ q.qtype.to_num < 65536 ∧
    QueryType.from_num q.qtype.to_num = q.qtype

/-- A well-formed record: valid names and in-range fields.  UNKNOWN
    records are excluded — `DnsRecord::write` skips them entirely, which is
    exactly what breaks the round-trip claim as stated (see the C2
    counterexample). -/
def DnsRecord.WF : DnsRecord → Prop
  | .UNKNOWN _ _ _ _ => False
  | .A d a t => ValidQname d ∧ a < 4294967296 ∧ t < 4294967296
  | .NS d n t => ValidQname d ∧ ValidQname n ∧ t < 4294967296
  | .CNAME d c t => ValidQname d ∧ ValidQname c ∧ t < 4294967296
  | .MX d p e t => ValidQname d ∧ p < 65536 ∧ ValidQname e ∧ t < 4294967296
  | .AAAA d a t => ValidQname d ∧ a.length = 16 ∧ (∀ b ∈ a, b < 256) ∧ t < 4294967296

/-- Section vector lengths match the header counts (spec §3 Packet
    invariant; the caller must establish it before encoding). -/
def DnsPacket.countsMatch (p : DnsPacket) : Prop :=
  p.header.questions = p.questions.length ∧ p.header.answers = p.answers.length ∧
    p.header.authoritative_entries = p.authorities.length ∧
    p.header.resource_entries = p.resources.length

def DnsPacket.WF (p : DnsPacket) : Prop :=
  p.header.WF ∧ (∀ q ∈ p.questions, q.WF) ∧ (∀ r ∈ p.answers, r.WF) ∧
    (∀ r ∈ p.authorities, r.WF) ∧ (∀ r ∈ p.resources, r.WF)

instance (s : RStr) : Decidable (ValidQname s) :=
  inferInstanceAs (Decidable (∀ part ∈ splitDots s,
    1 ≤ part.length ∧ part.length ≤ 63 ∧ ∀ c ∈ part, c < 128))

instance (h : DnsHeader) : Decidable h.WF :=
  inferInstanceAs (Decidable (h.id < 65536 ∧ h.opcode < 16 ∧
    h.questions < 65536 ∧ h.answers < 65536 ∧
    h.authoritative_entries < 65536 ∧ h.resource_entries < 65536))

instance (q : DnsQuestion) : Decidable q.WF :=
  inferInstanceAs (Decidable (ValidQname q.name ∧ q.qtype.to_num < 65536 ∧
    QueryType.from_num q.qtype.to_num = q.qtype))

instance : (r : DnsRecord) → Decidable r.WF
  | .UNKNOWN _ _ _ _ => isFalse (fun h => h)
  | .A d a t =>
    inferInstanceAs (Decidable (ValidQname d ∧ a < 4294967296 ∧
      t < 4294967296))
  | .NS d n t =>
    inferInstanceAs (Decidable (ValidQname d ∧ ValidQname n ∧ t < 4294967296))
  | .CNAME d c t =>
    inferInstanceAs (Decidable (ValidQname d ∧ ValidQname c ∧ t < 4294967296))
  | .MX d p e t =>
    inferInstanceAs (Decidable (ValidQname d ∧ p < 65536 ∧ ValidQname e ∧
      t < 4294967296))
  | .AAAA d a t =>
    inferInstanceAs (Decidable (ValidQname d ∧ a.length = 16 ∧
      (∀ b ∈ a, b < 256) ∧ t < 4294967296))

instance (p : DnsPacket) : Decidable p.countsMatch :=
  inferInstanceAs (Decidable (p.header.questions = p.questions.length ∧
    p.header.answers = p.answers.length ∧
    p.header.authoritative_entries = p.authorities.length ∧
    p.header.resource_entries = p.resources.length))

instance (p : DnsPacket) : Decidable p.WF :=
  inferInstanceAs (Decidable (p.header.WF ∧ (∀ q ∈ p.questions, q.WF) ∧
    (∀ r ∈ p.answers, r.WF) ∧ (∀ r ∈ p.authorities, r.WF) ∧
    (∀ r ∈ p.resources, r.WF)))

/-- Overwrite `bs.length` bytes of `B` starting at offset `p`. -/
def spliceAt (B : List Nat) (p : Nat) (bs : List Nat) : List Nat :=
  B.take p ++ bs ++ B.drop (p + bs.length)

/-- The bytes of `B` from offset `p` on are `bs` (and fit inside `B`). -/
def bytesAt (B : List Nat) (p : Nat) (bs : List Nat) : Prop :=
  p + bs.length ≤ B.length ∧ ∀ i, i < bs.length → B.getD (p + i) 0 = bs.getD i 0

/-- Lowercased-label concatenation produced by the `read_qname` loop when
    it starts with delimiter `delim` (empty on entry, `"."` afterwards). -/
def joinFrom (delim : RStr) : List RStr → RStr
  | [] => []
  | part :: rest => delim ++ part.map asciiLower ++ joinFrom [46] rest

/-- Counterexample input for C7: eight 63-character labels — a valid qname
    whose encoding needs 8·64 + 1 = 513 bytes, one more than the frame. -/
def c7name : RStr := List.intercalate [46] (List.replicate 8 (List.replicate 63 97))

/-- Counterexample input for C2: a packet whose only answer is an UNKNOWN
    record; counts match and the encoding (12 header bytes — the record is
    skipped by `DnsRecord::write`) fits the frame. -/
def c2cex : DnsPacket :=
  ⟨{ DnsHeader.new with answers := 1 }, [], [.UNKNOWN [120] 7 3 9], [], []⟩

/-- What decoding the encoding of `c2cex` actually yields: the answer
    count still says 1, so the decoder reads a record out of the zeroed
    frame. -/
def c2dec : DnsPacket :=
  ⟨{ DnsHeader.new with answers := 1 }, [], [.UNKNOWN [] 0 0 0], [], []⟩

/-- Witness input for the amended C2: one question `"Ex"`/A and one A
    answer `127.0.0.1`. -/
def c2wit : DnsPacket :=
  ⟨{ DnsHeader.new with questions := 1, answers := 1 },
   [⟨[69, 120], .A⟩], [.A [101, 120] 2130706433 3600], [], []⟩

/-! ## Cache (`src/cache/cache.rs`) -/

/-- `DnsCacheEntry`. -/
structure DnsCacheEntry where
  response : List Nat
  expiry : Nat
  ttl : Nat
deriving DecidableEq, Repr

/-- `DnsCacheEntry::is_expired`: `self.expiry < now` (strict). -/
def DnsCacheEntry.is_expired (e : DnsCacheEntry) (now : Nat) : Bool :=
  decide (e.expiry < now)

/-- `DnsCache`.  The `HashMap` is modelled as an association list (its
    operations below use set semantics, faithful because a map never holds
    a key twice), the `VecDeque` as a list with head = front. -/
structure DnsCache where
  cache : List (RStr × DnsCacheEntry)
  order : List RStr
  max_size : Nat
deriving DecidableEq, Repr

def DnsCache.new (max_size : Nat) : DnsCache := ⟨[], [], max_size⟩

/-- `HashMap::get` on the association list. -/
def cacheLookup (key : RStr) : List (RStr × DnsCacheEntry) → Option DnsCacheEntry
  | [] => none
  | kv :: rest => if kv.1 = key then some kv.2 else cacheLookup key rest

/-- `HashMap::remove` on the association list. -/
def cacheRemove (key : RStr) (l : List (RStr × DnsCacheEntry)) :
    List (RStr × DnsCacheEntry) :=
  l.filter (fun kv => decide (kv.1 ≠ key))

/-- `DnsCache::insert`.  `none` models the `order.pop_front().unwrap()`
    panic (order empty while the map is at capacity). -/
def DnsCache.insert (c : DnsCache) (key : RStr) (entry : DnsCacheEntry) :
    Option DnsCache :=
  if (cacheLookup key c.cache).isSome then some c
  else if c.max_size ≤ c.cache.length then
    match c.order with
    | [] => none
    | oldest :: rest =>
      some { c with cache := cacheRemove oldest c.cache ++ [(key, entry)],
                    order := rest ++ [key] }
  else
    some { c with cache := c.cache ++ [(key, entry)], order := c.order ++ [key] }

/-- `DnsCache::get` (the current wall-clock time is passed explicitly):
    returns the entry found, if any, together with the updated cache. -/
def DnsCache.get (c : DnsCache) (key : RStr) (now : Nat) :
    Option DnsCacheEntry × DnsCache :=
  match cacheLookup key c.cache with
  | some entry =>
    if entry.is_expired now then
      (none, { c with cache := cacheRemove key c.cache,
                      order := c.order.filter (fun x => decide (x ≠ key)) })
    else (some entry, c)
  | none => (none, c)

/-- Concrete frame for C8: the name `"a"` encoded at offset 0, and a chain
    of compression pointers at offsets 10, 12, ..., 20, each pointing to
    the previous one (offset 10 points at the name). -/
def c8buf : List Nat :=
  [1, 97, 0, 0, 0, 0, 0, 0, 0, 0,
   192, 0, 192, 10, 192, 12, 192, 14, 192, 16, 192, 18] ++ List.replicate 490 0

/-- Concrete frame for the C9 witness: an empty domain name, type code 7
    (unrecognized), class 1, TTL 9, RDLENGTH 3. -/
def c9buf : List Nat :=
  [0, 0, 7, 0, 1, 0, 0, 0, 9, 0, 3] ++ List.replicate 501 0

/-- A public cache operation, for stating the sequence invariants. -/
inductive CacheOp where
  | insert (key : RStr) (entry : DnsCacheEntry)
  | get (key : RStr) (now : Nat)

/-- Apply one operation; `none` propagates the insert panic. -/
def applyOp (c : DnsCache) : CacheOp → Option DnsCache
  | .insert k e => c.insert k e
  | .get k now => some (c.get k now).2

/-- Apply a sequence of operations. -/
def applyOps (c : DnsCache) : List CacheOp → Option DnsCache
  | [] => some c
  | op :: ops =>
    match applyOp c op with
    | none => none
    | some c1 => applyOps c1 ops

/-- The internal invariant of `DnsCache` maintained by the public
    operations. -/
def CacheInv (c : DnsCache) : Prop :=
  c.cache.length ≤ c.max_size ∧ (c.cache.map Prod.fst).Nodup ∧
    (c.cache.map Prod.fst).Perm c.order

/-- Number of occurrences of a key in a list of keys. -/
def countKey (k : RStr) (l : List RStr) : Nat :=
  (l.filter (fun x => decide (x = k))).length

theorem countKey_eq_one_of_nodup_mem {k : RStr} {l : List RStr}
    (hnd : l.Nodup) (hmem : k ∈ l) : countKey k l = 1 := by
  induction l with
  | nil => cases hmem
  | cons x xs ih =>
    obtain ⟨hx, hxs⟩ := List.nodup_cons.mp hnd
    by_cases h : x = k
    · subst h
      have hnotxs : ∀ y ∈ xs, decide (y = x) = false := by
        intro y hy
        simp only [decide_eq_false_iff_not]
        exact fun heq => hx (heq ▸ hy)
      have : xs.filter (fun y => decide (y = x)) = [] :=
        List.filter_eq_nil_iff.mpr (fun y hy => by
          rw [hnotxs y hy]; exact Bool.false_ne_true)
      simp [countKey, List.filter_cons, this]
    · have hmem2 : k ∈ xs := by
        rcases List.mem_cons.mp hmem with h2 | h2
        · exact absurd h2.symm h
        · exact h2
      have := ih hxs hmem2
      simp only [countKey, List.filter_cons, decide_eq_true_eq, h, if_false] at *
      simpa using this

/-! ## Query handler (`src/main.rs`) -/

/-- Decimal digits of a number, as code points (`{:?}` on a `u16`). -/
def natToStr (n : Nat) : RStr := (Nat.toDigits 10 n).map Char.toNat

/-- `format!("{}-{:?}", name, qtype.to_num())` — the cache fingerprint. -/
def fingerprint (name : RStr) (qtype : QueryType) : RStr :=
  name ++ [45] ++ natToStr qtype.to_num

/-- The TTL extraction `match rec { A{ttl,..} | … => ttl }` used by
    `handle_query` (and `update_expired`). -/
def DnsRecord.ttlOf : DnsRecord → Nat
  | .UNKNOWN _ _ _ ttl => ttl
  | .A _ _ ttl => ttl
  | .NS _ _ ttl => ttl
  | .CNAME _ _ ttl => ttl
  | .MX _ _ _ ttl => ttl
  | .AAAA _ _ ttl => ttl

/-- `DnsCacheEntry::from_packet` (expiry = now + ttl). -/
def DnsCacheEntry.from_packet (p : DnsPacket) (ttl now : Nat) : DnsCacheEntry :=
  ⟨(DnsPacket.write p ByteBuffer.new).buffer, now + ttl, ttl⟩

/-- `DnsCacheEntry::get_packet`.  `none` covers both failure modes that
    end in an `unwrap` panic at the `handle_query` call site: an oversized
    stored frame and a decode error. -/
def DnsCacheEntry.get_packet (e : DnsCacheEntry) : Option DnsPacket :=
  match ByteBuffer.fromBytes e.response with
  | none => none
  | some bb =>
    match DnsPacket.from_buffer bb with
    | .error _ => none
    | .ok p => some p

/-- Environment of `handle_query`: the recursive resolver is an oracle
    (its network behaviour is outside the model) and the wall clock is
    explicit. -/
structure HQEnv where
  resolve : RStr → QueryType → Except Unit DnsPacket
  now : Nat

/-- Outcome of one `handle_query` call: the datagrams passed to `send_to`
    (in order), plus either the returned packet and final cache state, or
    a panic. -/
inductive HQResult where
  | done (response : DnsPacket) (cache : DnsCache) (sent : List (List Nat))
  | panicked (sent : List (List Nat))
deriving Repr

/-- Tail of `handle_query` (main.rs lines 191–213): encode and send the
    response, compute the cache TTL (first answer's TTL, else 60), build
    the entry, then index `response.questions[0]` — which panics when the
    questions vector is empty — and insert under the fingerprint. -/
def hqFinish (env : HQEnv) (cache : DnsCache) (response : DnsPacket) : HQResult :=
  let bbw := DnsPacket.write response ByteBuffer.new
  let sent := bbw.buffer.take bbw.position
  let ttl := match response.answers.head? with
    | some rec => rec.ttlOf
    | none => 60
  let entry := DnsCacheEntry.from_packet response ttl env.now
  match response.questions.head? with
  | none => .panicked [sent]
  | some q0 =>
    match cache.insert (fingerprint q0.name q0.qtype) entry with
    | none => .panicked [sent]
    | some cache2 => .done response cache2 [sent]

/-- `handle_query` (main.rs lines 140–214), for one already-received and
    already-decoded request (the UDP receive and the decode `unwrap`
    precede the modelled region).  `request.questions.pop()` takes the
    last question; on a cache hit the stored frame is re-decoded, its id
    overwritten, and it is sent without touching the cache further. -/
def handle_query (env : HQEnv) (cache : DnsCache) (enable_cache : Bool)
    (request : DnsPacket) : HQResult :=
  let response0 : DnsPacket :=
    { DnsPacket.new with
        header := { DnsHeader.new with
                      id := request.header.id,
                      recursion_desired := true,
                      recursion_available := true,
                      response := true } }
  match request.questions.getLast? with
  | none =>
    hqFinish env cache
      { response0 with header := { response0.header with rescode := .FORMERR } }
  | some q =>
    let key := fingerprint q.name q.qtype
    let probe : Option DnsCacheEntry × DnsCache :=
      if enable_cache then cache.get key env.now else (none, cache)
    match probe.1 with
    | some entry =>
      (match entry.get_packet with
       | none => .panicked []
       | some pkt =>
         let pkt2 := { pkt with header := { pkt.header with id := request.header.id } }
         let bbw := DnsPacket.write pkt2 ByteBuffer.new
         .done pkt2 probe.2 [bbw.buffer.take bbw.position])
    | none =>
      match env.resolve q.name q.qtype with
      | .ok result =>
        hqFinish env probe.2
          { response0 with
              header := { response0.header with rescode := result.header.rescode },
              questions := [q],
              answers := result.answers,
              authorities := result.authorities,
              resources := result.resources }
      | .error _ =>
        hqFinish env probe.2
          { response0 with header := { response0.header with rescode := .SERVFAIL } }

/-! ### Cache helper lemmas -/

theorem cacheLookup_eq_none_iff {key : RStr} {l : List (RStr × DnsCacheEntry)} :
    cacheLookup key l = none ↔ key ∉ l.map Prod.fst := by
  induction l with
  | nil => simp [cacheLookup]
  | cons kv rest ih =>
    by_cases h : kv.1 = key
    · simp [cacheLookup, h]
    · rw [cacheLookup, if_neg h]
      simp only [ih, List.map_cons, List.mem_cons]
      constructor
      · intro hn h2
        rcases h2 with h2 | h2
        · exact h h2.symm
        · exact hn h2
      · intro hn h2
        exact hn (Or.inr h2)

theorem cacheLookup_isSome_iff {key : RStr} {l : List (RStr × DnsCacheEntry)} :
    (cacheLookup key l).isSome = true ↔ key ∈ l.map Prod.fst := by
  rw [Option.isSome_iff_ne_none, Ne, cacheLookup_eq_none_iff, not_not]

theorem map_fst_cacheRemove (key : RStr) (l : List (RStr × DnsCacheEntry)) :
    (cacheRemove key l).map Prod.fst =
      (l.map Prod.fst).filter (fun x => decide (x ≠ key)) := by
  induction l with
  | nil => rfl
  | cons kv rest ih =>
    by_cases h : kv.1 = key <;> simp [cacheRemove, List.filter, h, ih] <;>
      simp [cacheRemove] at ih <;> exact ih

theorem cacheLookup_cacheRemove_self (key : RStr) (l : List (RStr × DnsCacheEntry)) :
    cacheLookup key (cacheRemove key l) = none := by
  rw [cacheLookup_eq_none_iff, map_fst_cacheRemove]
  simp

theorem filter_ne_of_not_mem {o : RStr} {l : List RStr} (h : o ∉ l) :
    l.filter (fun x => decide (x ≠ o)) = l :=
  List.filter_eq_self.mpr (fun x hx => by
    simp only [decide_eq_true_eq]
    exact fun heq => h (heq ▸ hx))

/-- Specification of `insert` on a key not already present, for a cache
    satisfying the invariant with positive capacity: no panic, invariant
    preserved, `order` evolves by FIFO append (evicting the head exactly
    when at capacity). -/
theorem insert_fresh_spec (c : DnsCache) (k : RStr) (e : DnsCacheEntry)
    (hk : cacheLookup k c.cache = none) (hInv : CacheInv c) (hm : 0 < c.max_size) :
    ∃ c2, c.insert k e = some c2 ∧ CacheInv c2 ∧ c2.max_size = c.max_size ∧
      c2.order = (if c.max_size ≤ c.cache.length then c.order.tail else c.order) ++ [k] ∧
      (∀ k2, k2 ∈ c2.cache.map Prod.fst → k2 ∈ c.cache.map Prod.fst ∨ k2 = k) := by
  obtain ⟨hlen, hnd, hperm⟩ := hInv
  have hkmem : k ∉ c.cache.map Prod.fst := cacheLookup_eq_none_iff.mp hk
  by_cases hcap : c.max_size ≤ c.cache.length
  · -- at capacity: the order queue is nonempty and its head is evicted
    have horderlen : c.order.length = c.cache.length := by
      have h := hperm.length_eq
      simpa using h.symm
    obtain ⟨o, ot, ho⟩ : ∃ o ot, c.order = o :: ot := by
      cases hord : c.order with
      | nil => exfalso; rw [hord] at horderlen; simp at horderlen; omega
      | cons o ot => exact ⟨o, ot, rfl⟩
    have hpermo : (c.cache.map Prod.fst).Perm (o :: ot) := ho ▸ hperm
    have hordnd : (o :: ot).Nodup := hpermo.nodup hnd
    have honotot : o ∉ ot := (List.nodup_cons.mp hordnd).1
    have hfp : ((c.cache.map Prod.fst).filter (fun x => decide (x ≠ o))).Perm ot := by
      have h := hpermo.filter (fun x => decide (x ≠ o))
      rwa [List.filter_cons_of_neg, filter_ne_of_not_mem honotot] at h
      simp
    have hkeys2 : (cacheRemove o c.cache ++ [(k, e)]).map Prod.fst =
        (c.cache.map Prod.fst).filter (fun x => decide (x ≠ o)) ++ [k] := by
      rw [List.map_append, map_fst_cacheRemove]
      rfl
    have hsub : ∀ x, x ∈ (c.cache.map Prod.fst).filter (fun y => decide (y ≠ o)) →
        x ∈ c.cache.map Prod.fst := fun x hx => List.mem_of_mem_filter hx
    have hremlen : (cacheRemove o c.cache).length = ot.length := by
      have h1 := hfp.length_eq
      rw [← map_fst_cacheRemove] at h1
      simpa using h1
    refine ⟨{ c with cache := cacheRemove o c.cache ++ [(k, e)], order := ot ++ [k] },
      ?_, ⟨?_, ?_, ?_⟩, rfl, ?_, ?_⟩
    · simp [DnsCache.insert, hk, hcap, ho]
    · -- length
      simp only [List.length_append, hremlen, List.length_cons, List.length_nil]
      rw [ho] at horderlen
      simp only [List.length_cons] at horderlen
      omega
    · -- nodup of keys
      rw [hkeys2]
      have hknot : k ∉ (c.cache.map Prod.fst).filter (fun y => decide (y ≠ o)) :=
        fun h => hkmem (hsub k h)
      exact ((List.perm_append_singleton _ _).nodup_iff).mpr
        (List.nodup_cons.mpr ⟨hknot, hnd.filter _⟩)
    · -- permutation with the order queue
      rw [hkeys2]
      exact List.Perm.append hfp (List.Perm.refl [k])
    · rw [if_pos hcap, ho]
      rfl
    · intro k2 hk2
      rw [hkeys2] at hk2
      rcases List.mem_append.mp hk2 with h | h
      · exact Or.inl (hsub k2 h)
      · right; simpa using h
  · -- below capacity: plain append
    have hkeys2 : (c.cache ++ [(k, e)]).map Prod.fst = c.cache.map Prod.fst ++ [k] := by
      rw [List.map_append]
      rfl
    refine ⟨{ c with cache := c.cache ++ [(k, e)], order := c.order ++ [k] },
      ?_, ⟨?_, ?_, ?_⟩, rfl, ?_, ?_⟩
    · simp [DnsCache.insert, hk, hcap]
    · simp only [List.length_append, List.length_cons, List.length_nil]
      omega
    · rw [hkeys2]
      exact ((List.perm_append_singleton _ _).nodup_iff).mpr
        (List.nodup_cons.mpr ⟨hkmem, hnd⟩)
    · rw [hkeys2]
      exact List.Perm.append hperm (List.Perm.refl [k])
    · rw [if_neg hcap]
    · intro k2 hk2
      rw [hkeys2] at hk2
      rcases List.mem_append.mp hk2 with h | h
      · exact Or.inl h
      · right; simpa using h

/-- `insert` on a key already present is the identity (no panic). -/
theorem insert_present_noop (c : DnsCache) (k : RStr) (e e0 : DnsCacheEntry)
    (h : cacheLookup k c.cache = some e0) : c.insert k e = some c := by
  simp [DnsCache.insert, h]

/-- `get` preserves the invariant and the capacity. -/
theorem get_preserves_inv (c : DnsCache) (key : RStr) (now : Nat)
    (hInv : CacheInv c) :
    CacheInv (c.get key now).2 ∧ (c.get key now).2.max_size = c.max_size := by
  obtain ⟨hlen, hnd, hperm⟩ := hInv
  cases hl : cacheLookup key c.cache with
  | none =>
    simp only [DnsCache.get, hl]
    exact ⟨⟨hlen, hnd, hperm⟩, by trivial⟩
  | some entry =>
    by_cases hexp : entry.is_expired now = true
    · simp only [DnsCache.get, hl, if_pos hexp]
      refine ⟨⟨?_, ?_, ?_⟩, by trivial⟩
      · calc (cacheRemove key c.cache).length ≤ c.cache.length :=
              List.length_filter_le _ _
          _ ≤ c.max_size := hlen
      · rw [map_fst_cacheRemove]; exact hnd.filter _
      · rw [map_fst_cacheRemove]; exact hperm.filter _
    · simp only [DnsCache.get, hl, if_neg hexp]
      exact ⟨⟨hlen, hnd, hperm⟩, by trivial⟩

/-- Any sequence of public operations starting from an invariant-satisfying
    cache with positive capacity runs without panic and preserves the
    invariant and the capacity. -/
theorem applyOps_inv (ops : List CacheOp) :
    ∀ c : DnsCache, CacheInv c → 0 < c.max_size →
    ∃ c2, applyOps c ops = some c2 ∧ CacheInv c2 ∧ c2.max_size = c.max_size := by
  induction ops with
  | nil => intro c hInv _; exact ⟨c, rfl, hInv, rfl⟩
  | cons op rest ih =>
    intro c hInv hm
    cases op with
    | insert k e =>
      cases hl : cacheLookup k c.cache with
      | some e0 =>
        obtain ⟨c2, h2, hInv2, hms⟩ := ih c hInv hm
        exact ⟨c2, by simp [applyOps, applyOp, insert_present_noop c k e e0 hl, h2], hInv2, hms⟩
      | none =>
        obtain ⟨c1, h1, hInv1, hms1, _, _⟩ := insert_fresh_spec c k e hl hInv hm
        obtain ⟨c2, h2, hInv2, hms2⟩ := ih c1 hInv1 (by omega)
        exact ⟨c2, by simp [applyOps, applyOp, h1, h2], hInv2, by omega⟩
    | get k now =>
      obtain ⟨hInv1, hms1⟩ := get_preserves_inv c k now hInv
      obtain ⟨c2, h2, hInv2, hms2⟩ := ih _ hInv1 (by omega)
      exact ⟨c2, by simp [applyOps, applyOp, h2], hInv2, by omega⟩

/-! ### Claim theorems: cache -/

/-- Claim C4: starting from a fresh cache with positive `max_size`, every
    sequence of `insert`/`get` operations completes (no panic) and at the
    end of every operation the entry count is at most `max_size`, a key is
    in the entries map iff it appears in the order sequence, and such a key
    appears in the order sequence exactly once. -/
theorem c4_cache_invariants (m : Nat) (hm : 0 < m) (ops : List CacheOp) :
    ∃ c2, applyOps (DnsCache.new m) ops = some c2 ∧
      c2.cache.length ≤ m ∧
      (∀ k, k ∈ c2.cache.map Prod.fst ↔ k ∈ c2.order) ∧
      (∀ k, k ∈ c2.cache.map Prod.fst → countKey k c2.order = 1) := by
  have hInv : CacheInv (DnsCache.new m) := by
    refine ⟨by simp [DnsCache.new], by simp [DnsCache.new], by simp [DnsCache.new]⟩
  obtain ⟨c2, h2, ⟨hlen, hnd, hperm⟩, hms⟩ := applyOps_inv ops (DnsCache.new m) hInv hm
  refine ⟨c2, h2, by simpa [DnsCache.new, hms] using hlen, ?_, ?_⟩
  · intro k; exact hperm.mem_iff
  · intro k hk
    exact countKey_eq_one_of_nodup_mem (hperm.nodup hnd) (hperm.mem_iff.mp hk)

/-- Witness for C4 at a concrete input. -/
theorem c4_cache_invariants_witness :
    0 < 2 ∧ ∃ c2,
      applyOps (DnsCache.new 2)
        [CacheOp.insert [97] ⟨[], 9, 9⟩, CacheOp.insert [98] ⟨[], 9, 9⟩,
         CacheOp.insert [99] ⟨[], 9, 9⟩, CacheOp.get [98] 0] = some c2 ∧
      c2.cache.length ≤ 2 ∧
      (∀ k, k ∈ c2.cache.map Prod.fst ↔ k ∈ c2.order) ∧
      (∀ k, k ∈ c2.cache.map Prod.fst → countKey k c2.order = 1) :=
  ⟨by decide, c4_cache_invariants 2 (by decide) _⟩

/-- Claim C6: `insert` on a key already present in the cache leaves the
    entire cache state (entries, expiries, order) unchanged and performs no
    eviction. -/
theorem c6_insert_existing_noop (c : DnsCache) (k : RStr) (e0 enew : DnsCacheEntry)
    (h : cacheLookup k c.cache = some e0) : c.insert k enew = some c :=
  insert_present_noop c k enew e0 h

/-- Witness for C6 at a concrete input. -/
theorem c6_insert_existing_noop_witness :
    cacheLookup [107] (DnsCache.mk [([107], ⟨[], 5, 5⟩)] [[107]] 4).cache =
        some ⟨[], 5, 5⟩ ∧
      (DnsCache.mk [([107], ⟨[], 5, 5⟩)] [[107]] 4).insert [107] ⟨[1], 99, 99⟩ =
        some (DnsCache.mk [([107], ⟨[], 5, 5⟩)] [[107]] 4) :=
  ⟨by decide, c6_insert_existing_noop _ [107] ⟨[], 5, 5⟩ ⟨[1], 99, 99⟩ (by decide)⟩

/-- Counterexample to claim C3 as stated: with `expiry = now` (so
    `expiry ≤ now`), `get` returns the entry and leaves it in place,
    because `is_expired` uses the strict comparison `expiry < now`. -/
theorem c3_expiry_boundary_counterexample :
    (DnsCacheEntry.mk [] 5 5).expiry ≤ 5 ∧
      ((DnsCache.mk [([107], ⟨[], 5, 5⟩)] [[107]] 4).get [107] 5).1 =
        some ⟨[], 5, 5⟩ ∧
      ((DnsCache.mk [([107], ⟨[], 5, 5⟩)] [[107]] 4).get [107] 5).2 =
        DnsCache.mk [([107], ⟨[], 5, 5⟩)] [[107]] 4 := by
  refine ⟨by decide, by decide, by decide⟩

/-- Claim C3 (amended): `get` on a present entry whose expiry is *strictly
    less than* the current wall time returns none, and the key is absent
    from both the entries map and the order sequence afterwards (the code
    treats an entry as expired only when `now > expiry`). -/
theorem c3_get_expired_amended (c : DnsCache) (k : RStr) (now : Nat)
    (e : DnsCacheEntry) (hl : cacheLookup k c.cache = some e)
    (hexp : e.expiry < now) :
    (c.get k now).1 = none ∧
      cacheLookup k (c.get k now).2.cache = none ∧
      k ∉ (c.get k now).2.order := by
  have hexpired : e.is_expired now = true := by
    simp [DnsCacheEntry.is_expired, hexp]
  refine ⟨?_, ?_, ?_⟩
  · simp [DnsCache.get, hl, hexpired]
  · simp only [DnsCache.get, hl, hexpired, if_true]
    exact cacheLookup_cacheRemove_self k c.cache
  · simp [DnsCache.get, hl, hexpired]

/-- Witness for the amended C3 at a concrete input. -/
theorem c3_get_expired_amended_witness :
    cacheLookup [107] (DnsCache.mk [([107], ⟨[], 3, 3⟩)] [[107]] 4).cache =
        some ⟨[], 3, 3⟩ ∧ (3 : Nat) < 5 ∧
      (((DnsCache.mk [([107], ⟨[], 3, 3⟩)] [[107]] 4).get [107] 5).1 = none ∧
        cacheLookup [107]
          (((DnsCache.mk [([107], ⟨[], 3, 3⟩)] [[107]] 4).get [107] 5)).2.cache = none ∧
        [107] ∉ (((DnsCache.mk [([107], ⟨[], 3, 3⟩)] [[107]] 4).get [107] 5)).2.order) :=
  ⟨by decide, by decide,
    c3_get_expired_amended _ [107] 5 ⟨[], 3, 3⟩ (by decide) (by decide)⟩

/-! ### FIFO eviction (C5) -/

/-- Shape of the order queue after inserting a list of fresh, pairwise
    distinct keys: a sliding window of width `max_size` over the previous
    order followed by the new keys. -/
theorem insertAll_order_spec (kvs : List (RStr × DnsCacheEntry)) :
    ∀ c : DnsCache, CacheInv c → 0 < c.max_size →
    (kvs.map Prod.fst).Nodup →
    (∀ kv ∈ kvs, kv.1 ∉ c.cache.map Prod.fst) →
    ∃ c2, applyOps c (kvs.map fun kv => CacheOp.insert kv.1 kv.2) = some c2 ∧
      CacheInv c2 ∧ c2.max_size = c.max_size ∧
      c2.order = (c.order ++ kvs.map Prod.fst).drop
        (c.order.length + kvs.length - c.max_size) := by
  induction kvs with
  | nil =>
    intro c hInv hm _ _
    obtain ⟨hlen, hnd, hperm⟩ := hInv
    have horder : c.order.length ≤ c.max_size := by
      have := hperm.length_eq; simp at this; omega
    refine ⟨c, rfl, ⟨hlen, hnd, hperm⟩, rfl, ?_⟩
    have h0 : c.order.length - c.max_size = 0 := by omega
    simp [h0]
  | cons kv rest ih =>
    intro c hInv hm hnd hfresh
    obtain ⟨hlen, hcnd, hperm⟩ := hInv
    have hkv : cacheLookup kv.1 c.cache = none :=
      cacheLookup_eq_none_iff.mpr (hfresh kv (by simp))
    obtain ⟨c1, h1, hInv1, hms1, hord1, hkeys1⟩ :=
      insert_fresh_spec c kv.1 kv.2 hkv ⟨hlen, hcnd, hperm⟩ hm
    have hndrest : (rest.map Prod.fst).Nodup := by
      simp only [List.map_cons, List.nodup_cons] at hnd; exact hnd.2
    have hkvnotrest : kv.1 ∉ rest.map Prod.fst := by
      simp only [List.map_cons, List.nodup_cons] at hnd; exact hnd.1
    have hfresh1 : ∀ kv2 ∈ rest, kv2.1 ∉ c1.cache.map Prod.fst := by
      intro kv2 hkv2 hmem
      rcases hkeys1 kv2.1 hmem with h | h
      · exact hfresh kv2 (by simp [hkv2]) h
      · exact hkvnotrest (h ▸ List.mem_map_of_mem Prod.fst hkv2)
    obtain ⟨c2, h2, hInv2, hms2, hord2⟩ := ih c1 hInv1 (by omega) hndrest hfresh1
    refine ⟨c2, ?_, hInv2, by omega, ?_⟩
    · simp [applyOps, applyOp, h1, h2]
    · rw [hord2, hord1, hms1]
      have horderlen : c.order.length = c.cache.length := by
        have := hperm.length_eq; simp at this; omega
      by_cases hcap : c.max_size ≤ c.cache.length
      · -- eviction: order head dropped
        have hlencap : c.cache.length = c.max_size := by omega
        obtain ⟨o, ot, ho⟩ : ∃ o ot, c.order = o :: ot := by
          cases hord : c.order with
          | nil => exfalso; rw [hord] at horderlen; simp at horderlen; omega
          | cons o ot => exact ⟨o, ot, rfl⟩
        rw [if_pos hcap, ho]
        have hotlen : ot.length = c.max_size - 1 := by
          rw [ho] at horderlen; simp at horderlen; omega
        have harith : (o :: ot).length + (kv :: rest).length - c.max_size =
            (ot.length + 1 + rest.length - c.max_size) + 1 := by
          simp only [List.length_cons]; omega
        rw [harith]
        simp only [List.cons_append, List.drop_succ_cons, List.tail_cons,
          List.map_cons, List.append_assoc, List.singleton_append,
          List.length_append, List.length_cons, List.length_nil, List.nil_append]
      · rw [if_neg hcap]
        simp only [List.map_cons, List.append_assoc, List.singleton_append,
          List.length_append, List.length_cons, List.length_nil, List.nil_append]
        congr 1
        omega

/-- Claim C5: inserting `n` pairwise-distinct keys into a fresh cache with
    `0 < max_size < n` leaves exactly the last `max_size` keys, in
    insertion order (FIFO eviction). -/
theorem c5_fifo_eviction (m : Nat) (kvs : List (RStr × DnsCacheEntry))
    (hm : 0 < m) (hnd : (kvs.map Prod.fst).Nodup) (hlen : m < kvs.length) :
    ∃ c2, applyOps (DnsCache.new m) (kvs.map fun kv => CacheOp.insert kv.1 kv.2) =
        some c2 ∧
      c2.order = (kvs.map Prod.fst).drop (kvs.length - m) ∧
      (∀ k, k ∈ c2.cache.map Prod.fst ↔
        k ∈ (kvs.map Prod.fst).drop (kvs.length - m)) := by
  have hInv : CacheInv (DnsCache.new m) :=
    ⟨by simp [DnsCache.new], by simp [DnsCache.new], by simp [DnsCache.new]⟩
  obtain ⟨c2, h2, ⟨_, _, hperm⟩, hms, hord⟩ :=
    insertAll_order_spec kvs (DnsCache.new m) hInv hm hnd
      (by intro kv _; simp [DnsCache.new])
  have hord2 : c2.order = (kvs.map Prod.fst).drop (kvs.length - m) := by
    rw [hord]; simp [DnsCache.new]
  exact ⟨c2, h2, hord2, fun k => hord2 ▸ hperm.mem_iff⟩

/-- Witness for C5 at a concrete input. -/
theorem c5_fifo_eviction_witness :
    0 < 1 ∧
      ((([([97], DnsCacheEntry.mk [] 9 9), ([98], DnsCacheEntry.mk [] 9 9)] :
          List (RStr × DnsCacheEntry)).map Prod.fst).Nodup) ∧
      1 < ([([97], DnsCacheEntry.mk [] 9 9), ([98], DnsCacheEntry.mk [] 9 9)] :
          List (RStr × DnsCacheEntry)).length ∧
      ∃ c2, applyOps (DnsCache.new 1)
          (([([97], DnsCacheEntry.mk [] 9 9), ([98], DnsCacheEntry.mk [] 9 9)] :
            List (RStr × DnsCacheEntry)).map fun kv => CacheOp.insert kv.1 kv.2) =
          some c2 ∧
        c2.order = (([([97], DnsCacheEntry.mk [] 9 9), ([98], DnsCacheEntry.mk [] 9 9)] :
            List (RStr × DnsCacheEntry)).map Prod.fst).drop 1 ∧
        (∀ k, k ∈ c2.cache.map Prod.fst ↔
          k ∈ (([([97], DnsCacheEntry.mk [] 9 9), ([98], DnsCacheEntry.mk [] 9 9)] :
            List (RStr × DnsCacheEntry)).map Prod.fst).drop 1) :=
  ⟨by decide, by decide, by decide,
    c5_fifo_eviction 1 _ (by decide) (by decide) (by decide)⟩

/-! ### Claim theorems: byte buffer boundaries -/

/-- Claim C10: `get_range(start, len)` with `start + len = 512` fails with
    `BufferOverflow` although every accessed offset would be below 512; in
    particular `get_range(511, 1)` fails while `get(511)` succeeds, so the
    final byte of the frame is unreachable through a range read. -/
theorem c10_get_range_boundary :
    (∀ (bb : ByteBuffer) (start len : Nat), start + len = 512 → start < 512 →
      bb.get_range start len = .error .bufferOverflow) ∧
    (∀ bb : ByteBuffer, bb.get_range 511 1 = .error .bufferOverflow) ∧
    (∀ bb : ByteBuffer, bb.get 511 = .ok (bb.buffer.getD 511 0)) := by
  refine ⟨?_, ?_, ?_⟩
  · intro bb start len hsum _
    simp [ByteBuffer.get_range, ByteBuffer.get_range_, hsum]
  · intro bb
    simp [ByteBuffer.get_range, ByteBuffer.get_range_]
  · intro bb
    simp [ByteBuffer.get]

/-- Witness for C10 at a concrete input. -/
theorem c10_get_range_boundary_witness :
    ByteBuffer.new.get_range 511 1 = .error .bufferOverflow ∧
      ByteBuffer.new.get 511 = .ok (ByteBuffer.new.buffer.getD 511 0) :=
  ⟨c10_get_range_boundary.1 ByteBuffer.new 511 1 (by decide) (by decide),
    c10_get_range_boundary.2.2 ByteBuffer.new⟩

/-- Claim C8: a name whose decoding traverses exactly 5 compression
    pointers succeeds (reading position 18 follows the pointers at
    18, 16, 14, 12, 10 and then the name `"a"`), and the persistent
    position afterwards is two bytes past the *first* pointer word (20),
    untouched by the later pointers; a name traversing 6 pointers
    (reading position 20) fails with `MalformedName`. -/
theorem c8_pointer_cap_boundary :
    (ByteBuffer.mk c8buf 18).read_qname = .ok ([97], ByteBuffer.mk c8buf 20) ∧
      (ByteBuffer.mk c8buf 20).read_qname = .error .malformedName := by
  refine ⟨by decide, by decide⟩

/-! ### Claim C9: UNKNOWN record decode -/

theorem read_ok_shape {bb bb2 : ByteBuffer} {v : Nat}
    (h : bb.read = .ok (v, bb2)) :
    bb2 = ⟨bb.buffer, bb.position + 1⟩ ∧ bb.position < 512 := by
  by_cases h512 : bb.position ≥ 512
  · simp [ByteBuffer.read, h512] at h
  · rw [ByteBuffer.read, if_neg h512] at h
    injection h with h
    injection h with h1 h2
    exact ⟨h2.symm, by omega⟩

theorem read_u16_ok_shape {bb bb2 : ByteBuffer} {v : Nat}
    (h : bb.read_u16 = .ok (v, bb2)) :
    bb2 = ⟨bb.buffer, bb.position + 2⟩ := by
  rw [ByteBuffer.read_u16] at h
  cases h1 : bb.read with
  | error e => rw [h1] at h; simp at h
  | ok p1 =>
    obtain ⟨hi, bb1⟩ := p1
    rw [h1] at h
    dsimp only at h
    cases h2 : bb1.read with
    | error e => rw [h2] at h; simp at h
    | ok p2 =>
      obtain ⟨lo, bbx⟩ := p2
      rw [h2] at h
      dsimp only at h
      injection h with h
      injection h with hv hbb
      obtain ⟨hs1, _⟩ := read_ok_shape h1
      obtain ⟨hs2, _⟩ := read_ok_shape h2
      subst hbb
      rw [hs2, hs1]

/-- Claim C9: reading a record whose type code is none of 1, 2, 5, 15, 28
    yields an UNKNOWN record carrying the type code, `data_len` and TTL,
    and leaves the cursor exactly where it was after reading the RDLENGTH
    field (two bytes past the TTL reads), so the `data_len` bytes of RDATA
    are not consumed. -/
theorem c9_unknown_record_read (bb bb1 bb2 bb3 bb4 bb5 : ByteBuffer)
    (domain : RStr) (qtype clazz ttl data_len : Nat)
    (h1 : bb.read_qname = .ok (domain, bb1))
    (h2 : bb1.read_u16 = .ok (qtype, bb2))
    (h3 : bb2.read_u16 = .ok (clazz, bb3))
    (h4 : bb3.read_u32 = .ok (ttl, bb4))
    (h5 : bb4.read_u16 = .ok (data_len, bb5))
    (hq1 : qtype ≠ 1) (hq2 : qtype ≠ 2) (hq5 : qtype ≠ 5)
    (hq15 : qtype ≠ 15) (hq28 : qtype ≠ 28) :
    DnsRecord.read bb = .ok (.UNKNOWN domain qtype data_len ttl, bb5) ∧
      bb5.position = bb4.position + 2 := by
  constructor
  · simp [DnsRecord.read, h1, h2, h3, h4, h5, hq1, hq2, hq5, hq15, hq28]
  · rw [read_u16_ok_shape h5]

/-- Witness for C9 at a concrete input. -/
theorem c9_unknown_record_read_witness :
    DnsRecord.read ⟨c9buf, 0⟩ = .ok (.UNKNOWN [] 7 3 9, ⟨c9buf, 11⟩) ∧
      (ByteBuffer.mk c9buf 11).position = (ByteBuffer.mk c9buf 9).position + 2 :=
  c9_unknown_record_read ⟨c9buf, 0⟩ ⟨c9buf, 1⟩ ⟨c9buf, 3⟩ ⟨c9buf, 5⟩ ⟨c9buf, 9⟩
    ⟨c9buf, 11⟩ [] 7 1 9 3 (by decide) (by decide) (by decide) (by decide)
    (by decide) (by decide) (by decide) (by decide) (by decide) (by decide)

/-! ### Arithmetic for byte (de)composition -/

theorem lor_shl_eq_add {a b k : Nat} (hb : b < 2 ^ k) :
    (a <<< k) ||| b = a * 2 ^ k + b := by
  rw [Nat.shiftLeft_eq, Nat.mul_comm a (2 ^ k)]
  exact (Nat.mul_add_lt_is_or hb a).symm

theorem and_255_eq_mod {x : Nat} : x &&& 0xFF = x % 256 := by
  have h := Nat.and_pow_two_sub_one_eq_mod x 8
  norm_num at h
  exact h

theorem mod256_lt (x : Nat) : x % 256 < 2 ^ 8 := by
  have e : (2 : Nat) ^ 8 = 256 := by norm_num
  rw [e]
  exact Nat.mod_lt x (by norm_num)

theorem u16_recompose {v : Nat} (hv : v < 65536) :
    ((((v >>> 8) % 256) <<< 8) ||| (v &&& 0xFF)) = v := by
  have h1 : v >>> 8 = v / 256 := by
    rw [Nat.shiftRight_eq_div_pow]
  have h3 : v / 256 % 256 = v / 256 := Nat.mod_eq_of_lt (by omega)
  rw [h1, h3, and_255_eq_mod, lor_shl_eq_add (mod256_lt v)]
  have e : (2 : Nat) ^ 8 = 256 := by norm_num
  rw [e]
  omega


theorem u32_recompose {v : Nat} (hv : v < 4294967296) :
    (((((v >>> 24) &&& 0xFF) <<< 24) ||| (((v >>> 16) &&& 0xFF) <<< 16)) |||
        (((v >>> 8) &&& 0xFF) <<< 8)) ||| ((v &&& 0xFF) <<< 0) = v := by
  have e24 : v >>> 24 = v / 16777216 := by
    rw [Nat.shiftRight_eq_div_pow]
  have e16 : v >>> 16 = v / 65536 := by
    rw [Nat.shiftRight_eq_div_pow]
  have e8 : v >>> 8 = v / 256 := by
    rw [Nat.shiftRight_eq_div_pow]
  have ep16 : (2 : Nat) ^ 16 = 65536 := by norm_num
  have ep24 : (2 : Nat) ^ 24 = 16777216 := by norm_num
  have ep8 : (2 : Nat) ^ 8 = 256 := by norm_num
  rw [Nat.shiftLeft_zero, and_255_eq_mod, and_255_eq_mod, and_255_eq_mod,
    and_255_eq_mod, e24, e16, e8]
  have h1 : (v / 16777216 % 256) <<< 24 ||| (v / 65536 % 256) <<< 16 =
      (v / 16777216 % 256 * 256 + v / 65536 % 256) <<< 16 := by
    have hb : (v / 65536 % 256) <<< 16 < 2 ^ 24 := by
      rw [Nat.shiftLeft_eq, ep16, ep24]
      have h := Nat.mod_lt (v / 65536) (y := 256) (by norm_num)
      omega
    rw [lor_shl_eq_add hb]
    simp only [Nat.shiftLeft_eq, ep16, ep24]
    ring
  have h2 : (v / 16777216 % 256 * 256 + v / 65536 % 256) <<< 16 |||
      (v / 256 % 256) <<< 8 =
      ((v / 16777216 % 256 * 256 + v / 65536 % 256) * 256 + v / 256 % 256) <<< 8 := by
    have hb : (v / 256 % 256) <<< 8 < 2 ^ 16 := by
      rw [Nat.shiftLeft_eq, ep8, ep16]
      have h := Nat.mod_lt (v / 256) (y := 256) (by norm_num)
      omega
    rw [lor_shl_eq_add hb]
    simp only [Nat.shiftLeft_eq, ep16, ep8]
    ring
  have h3 : ((v / 16777216 % 256 * 256 + v / 65536 % 256) * 256 + v / 256 % 256) <<< 8 |||
      v % 256 =
      ((v / 16777216 % 256 * 256 + v / 65536 % 256) * 256 + v / 256 % 256) * 256 +
        v % 256 := by
    rw [lor_shl_eq_add (mod256_lt v)]
    simp only [Nat.shiftLeft_eq, ep8]
  rw [h1, h2, h3]
  omega

/-! ### Byte views and splices of the frame -/

theorem list_ext_getD {B C : List Nat} (hlen : B.length = C.length)
    (h : ∀ i, i < B.length → B.getD i 0 = C.getD i 0) : B = C := by
  apply List.ext_getElem hlen
  intro i h1 h2
  have h3 := h i h1
  rwa [List.getD_eq_getElem B 0 h1, List.getD_eq_getElem C 0 h2] at h3

theorem getD_take {l : List Nat} {n i : Nat} (h : i < n) :
    (l.take n).getD i 0 = l.getD i 0 := by
  simp only [List.getD_eq_getElem?_getD]
  rw [List.getElem?_take_of_lt h]

theorem getD_drop : ∀ (p : Nat) (l : List Nat) (i : Nat),
    (l.drop p).getD i 0 = l.getD (p + i) 0
  | 0, l, i => by simp
  | p + 1, [], i => by simp
  | p + 1, x :: xs, i => by
    rw [List.drop_succ_cons, getD_drop p xs i]
    have h : p + 1 + i = (p + i) + 1 := by omega
    rw [h, List.getD_cons_succ]

theorem getD_set {l : List Nat} {q i v : Nat} :
    (l.set q v).getD i 0 = if q = i ∧ i < l.length then v else l.getD i 0 := by
  by_cases h1 : q = i
  · subst h1
    by_cases h2 : q < l.length
    · rw [if_pos ⟨rfl, h2⟩]
      simp only [List.getD_eq_getElem?_getD]
      rw [List.getElem?_set_self h2]
      rfl
    · rw [if_neg (fun hc => h2 hc.2)]
      rw [List.getD_eq_default _ _ (by rw [List.length_set]; omega),
        List.getD_eq_default _ _ (by omega)]
  · rw [if_neg (fun hc => h1 hc.1)]
    simp only [List.getD_eq_getElem?_getD]
    rw [List.getElem?_set_ne h1]

theorem length_spliceAt {B : List Nat} {p : Nat} {bs : List Nat}
    (h : p + bs.length ≤ B.length) : (spliceAt B p bs).length = B.length := by
  simp only [spliceAt, List.length_append, List.length_take, List.length_drop]
  omega

theorem getD_spliceAt {B : List Nat} {p : Nat} {bs : List Nat} {i : Nat}
    (hle : p + bs.length ≤ B.length) :
    (spliceAt B p bs).getD i 0 =
      if i < p then B.getD i 0
      else if i < p + bs.length then bs.getD (i - p) 0
      else B.getD i 0 := by
  have htl : (B.take p).length = p := by rw [List.length_take]; omega
  have htbl : (B.take p ++ bs).length = p + bs.length := by
    rw [List.length_append, htl]
  by_cases h1 : i < p
  · rw [if_pos h1]
    simp only [spliceAt]
    rw [List.getD_append _ _ _ _ (by rw [htbl]; omega),
      List.getD_append _ _ _ _ (by rw [htl]; omega), getD_take h1]
  · rw [if_neg h1]
    simp only [spliceAt]
    by_cases h2 : i < p + bs.length
    · rw [if_pos h2, List.getD_append _ _ _ _ (by rw [htbl]; omega),
        List.getD_append_right _ _ _ _ (by rw [htl]; omega), htl]
    · rw [if_neg h2, List.getD_append_right _ _ _ _ (by rw [htbl]; omega), htbl,
        getD_drop]
      congr 1
      omega

theorem set_eq_spliceAt {B : List Nat} {q v : Nat} (h : q < B.length) :
    B.set q v = spliceAt B q [v] := by
  have hle : q + [v].length ≤ B.length := by simp; omega
  apply list_ext_getD
  · rw [List.length_set, length_spliceAt hle]
  · intro i hi
    rw [List.length_set] at hi
    rw [getD_spliceAt hle, getD_set]
    by_cases h1 : i < q
    · rw [if_pos h1, if_neg (by omega)]
    · by_cases h2 : i = q
      · subst h2
        rw [if_pos ⟨rfl, hi⟩, if_neg (by omega), if_pos (by simp)]
        simp
      · rw [if_neg (by omega), if_neg (by omega), if_neg (by simp; omega)]

theorem spliceAt_spliceAt {B : List Nat} {p : Nat} {bs1 bs2 : List Nat}
    (h : p + bs1.length + bs2.length ≤ B.length) :
    spliceAt (spliceAt B p bs1) (p + bs1.length) bs2 = spliceAt B p (bs1 ++ bs2) := by
  have htl : (B.take p).length = p := by rw [List.length_take]; omega
  have hfl : (B.take p ++ bs1).length = p + bs1.length := by
    rw [List.length_append, htl]
  simp only [spliceAt]
  have htake : ((B.take p ++ bs1) ++ B.drop (p + bs1.length)).take (p + bs1.length) =
      B.take p ++ bs1 := List.take_left' hfl
  have hdrop : ((B.take p ++ bs1) ++ B.drop (p + bs1.length)).drop
      (p + bs1.length + bs2.length) = B.drop (p + bs1.length + bs2.length) := by
    rw [← List.drop_drop, List.drop_left' hfl, List.drop_drop]
  rw [htake, hdrop, List.length_append]
  have h2 : p + (bs1.length + bs2.length) = p + bs1.length + bs2.length := by omega
  rw [h2]
  simp [List.append_assoc]

theorem spliceAt_add {B : List Nat} {p q : Nat} {bs1 bs2 : List Nat}
    (hq : q = p + bs1.length) (h : p + bs1.length + bs2.length ≤ B.length) :
    spliceAt (spliceAt B p bs1) q bs2 = spliceAt B p (bs1 ++ bs2) := by
  subst hq
  exact spliceAt_spliceAt h

theorem set_append_right {l r : List Nat} {n v : Nat} (h : l.length ≤ n) :
    (l ++ r).set n v = l ++ r.set (n - l.length) v := by
  induction l generalizing n with
  | nil => simp
  | cons x xs ih =>
    simp only [List.length_cons] at h
    cases n with
    | zero => exact absurd h (by omega)
    | succ m =>
      simp only [List.cons_append, List.set_cons_succ, List.length_cons]
      have hidx : m + 1 - (xs.length + 1) = m - xs.length := by omega
      rw [hidx, ih (by omega)]

theorem set_spliceAt_inside {B : List Nat} {p : Nat} {bs : List Nat} {i v : Nat}
    (hi : i < bs.length) (hle : p + bs.length ≤ B.length) :
    (spliceAt B p bs).set (p + i) v = spliceAt B p (bs.set i v) := by
  have hsetlen : (bs.set i v).length = bs.length := List.length_set bs i v
  have hle2 : p + (bs.set i v).length ≤ B.length := by rw [hsetlen]; omega
  apply list_ext_getD
  · rw [List.length_set, length_spliceAt hle, length_spliceAt hle2]
  · intro j hj
    rw [List.length_set, length_spliceAt hle] at hj
    rw [getD_set, getD_spliceAt hle, getD_spliceAt hle2, length_spliceAt hle, hsetlen]
    by_cases c1 : j < p
    · rw [if_neg (by omega), if_pos c1, if_pos c1]
    · by_cases c2 : j < p + bs.length
      · rw [if_neg c1, if_neg c1, if_pos c2, if_pos c2, getD_set]
        by_cases c3 : p + i = j
        · rw [if_pos ⟨c3, by omega⟩, if_pos ⟨by omega, by omega⟩]
        · rw [if_neg (fun hc => c3 hc.1), if_neg (by omega)]
      · rw [if_neg (by omega), if_neg c1, if_neg c2, if_neg c1, if_neg c2]

theorem bytesAt_split {B : List Nat} {p : Nat} {bs1 bs2 : List Nat}
    (h : bytesAt B p (bs1 ++ bs2)) :
    bytesAt B p bs1 ∧ bytesAt B (p + bs1.length) bs2 := by
  obtain ⟨hle, hval⟩ := h
  rw [List.length_append] at hle
  refine ⟨⟨by omega, ?_⟩, ⟨by omega, ?_⟩⟩
  · intro i hi
    have := hval i (by simp; omega)
    rwa [List.getD_append _ _ _ _ hi] at this
  · intro i hi
    have := hval (bs1.length + i) (by simp; omega)
    rw [List.getD_append_right _ _ _ _ (by omega)] at this
    rw [← Nat.add_assoc] at this
    simpa using this

theorem bytesAt_spliceAt {B : List Nat} {p : Nat} {bs : List Nat}
    (h : p + bs.length ≤ B.length) : bytesAt (spliceAt B p bs) p bs := by
  refine ⟨by rw [length_spliceAt h]; omega, ?_⟩
  intro i hi
  rw [getD_spliceAt h, if_neg (by omega), if_pos (by omega)]
  congr 1
  omega

theorem slice_eq_of_bytesAt {B : List Nat} {p : Nat} {bs : List Nat}
    (h : bytesAt B p bs) : (B.drop p).take bs.length = bs := by
  obtain ⟨hle, hval⟩ := h
  apply list_ext_getD
  · rw [List.length_take, List.length_drop]; omega
  · intro i hi
    rw [List.length_take, List.length_drop] at hi
    have hib : i < bs.length := by omega
    rw [getD_take hib, getD_drop]
    exact hval i hib

theorem bytesAt_of_prefix {bs pad : List Nat} :
    bytesAt (bs ++ pad) 0 bs := by
  refine ⟨by simp, ?_⟩
  intro i hi
  rw [Nat.zero_add, List.getD_append _ _ _ _ hi]

/-! ### Writer effect lemmas

Every writer is proved to turn the canonical state
`⟨spliceAt B p done, p + done.length⟩` into the same state with its byte
chunk appended to `done`, provided the chunk fits in the frame. -/

theorem spliceAt_nil {B : List Nat} {p : Nat} : spliceAt B p [] = B := by
  simp [spliceAt]

theorem pairbb_eq {L1 L2 : List Nat} {n1 n2 : Nat} (hL : L1 = L2) (hn : n1 = n2) :
    ((Except.ok () : Except DnsError Unit), (⟨L1, n1⟩ : ByteBuffer)) =
      (.ok (), (⟨L2, n2⟩ : ByteBuffer)) := by
  rw [hL, hn]

theorem bbmk_eq {L1 L2 : List Nat} {n1 n2 : Nat} (hL : L1 = L2) (hn : n1 = n2) :
    (⟨L1, n1⟩ : ByteBuffer) = ⟨L2, n2⟩ := by
  rw [hL, hn]

theorem set_append_left {l r : List Nat} {n v : Nat} (h : n < l.length) :
    (l ++ r).set n v = l.set n v ++ r := by
  induction l generalizing n with
  | nil => simp at h
  | cons x xs ih =>
    cases n with
    | zero => simp
    | succ m =>
      simp only [List.cons_append, List.set_cons_succ]
      rw [ih (by simpa using h)]

theorem write_chain {B : List Nat} {p : Nat} {done : List Nat} {q v : Nat}
    (hB : B.length = 512) (hq : q = p + done.length)
    (hfit : p + done.length + 1 ≤ 512) :
    ByteBuffer.write ⟨spliceAt B p done, q⟩ v =
      (.ok (), ⟨spliceAt B p (done ++ [v]), p + done.length + 1⟩) := by
  subst hq
  have hdl : p + done.length ≤ B.length := by omega
  have hsl : (spliceAt B p done).length = 512 := by
    rw [length_spliceAt hdl]; exact hB
  simp only [ByteBuffer.write]
  rw [if_neg (by omega), set_eq_spliceAt (by rw [hsl]; omega),
    spliceAt_spliceAt (by simp only [List.length_cons, List.length_nil]; omega)]

theorem write_u16_chain {B : List Nat} {p : Nat} {done : List Nat} {q v : Nat}
    (hB : B.length = 512) (hq : q = p + done.length)
    (hfit : p + done.length + 2 ≤ 512) :
    ByteBuffer.write_u16 ⟨spliceAt B p done, q⟩ v =
      (.ok (), ⟨spliceAt B p (done ++ u16Bytes v), p + done.length + 2⟩) := by
  subst hq
  simp only [ByteBuffer.write_u16]
  rw [write_chain hB rfl (by omega)]
  dsimp only
  rw [write_chain hB
    (by simp only [List.length_append, List.length_cons, List.length_nil]; omega)
    (by simp only [List.length_append, List.length_cons, List.length_nil]; omega)]
  exact pairbb_eq (by simp [u16Bytes, List.append_assoc])
    (by simp only [List.length_append, List.length_cons, List.length_nil]; omega)

theorem write_u32_chain {B : List Nat} {p : Nat} {done : List Nat} {q v : Nat}
    (hB : B.length = 512) (hq : q = p + done.length)
    (hfit : p + done.length + 4 ≤ 512) :
    ByteBuffer.write_u32 ⟨spliceAt B p done, q⟩ v =
      (.ok (), ⟨spliceAt B p (done ++ u32Bytes v), p + done.length + 4⟩) := by
  subst hq
  simp only [ByteBuffer.write_u32]
  rw [write_chain hB rfl (by omega)]
  dsimp only
  rw [write_chain hB
    (by simp only [List.length_append, List.length_cons, List.length_nil]; omega)
    (by simp only [List.length_append, List.length_cons, List.length_nil]; omega)]
  dsimp only
  rw [write_chain hB
    (by simp only [List.length_append, List.length_cons, List.length_nil]; omega)
    (by simp only [List.length_append, List.length_cons, List.length_nil]; omega)]
  dsimp only
  rw [write_chain hB
    (by simp only [List.length_append, List.length_cons, List.length_nil]; omega)
    (by simp only [List.length_append, List.length_cons, List.length_nil]; omega)]
  exact pairbb_eq (by simp [u32Bytes, List.append_assoc])
    (by simp only [List.length_append, List.length_cons, List.length_nil]; omega)

theorem set_u16_chain {B : List Nat} {p : Nat} {done : List Nat} {q i v : Nat}
    (hB : B.length = 512) (hi : i + 1 < done.length)
    (hfit : p + done.length ≤ 512) :
    ByteBuffer.set_u16 ⟨spliceAt B p done, q⟩ (p + i) v =
      (.ok (), ⟨spliceAt B p ((done.set i ((v >>> 8) % 256)).set (i + 1) (v &&& 0xFF)), q⟩) := by
  have hdl : p + done.length ≤ B.length := by omega
  simp only [ByteBuffer.set_u16, ByteBuffer.set]
  rw [if_neg (by omega), set_spliceAt_inside (by omega) hdl]
  dsimp only
  have hx : p + i + 1 = p + (i + 1) := by omega
  rw [if_neg (by omega), hx,
    set_spliceAt_inside (by rw [List.length_set]; omega) (by rw [List.length_set]; omega)]

theorem writeChars_chain : ∀ (cs : RStr) {B : List Nat} {p : Nat} {done : List Nat} {q : Nat},
    B.length = 512 → q = p + done.length →
    p + done.length + cs.length ≤ 512 →
    ByteBuffer.writeChars cs ⟨spliceAt B p done, q⟩ =
      (.ok (), ⟨spliceAt B p (done ++ cs.map (· % 256)), p + done.length + cs.length⟩)
  | [], B, p, done, q, hB, hq, hfit => by
    subst hq
    simp only [ByteBuffer.writeChars, List.map_nil, List.append_nil, List.length_nil,
      Nat.add_zero]
  | c :: cs, B, p, done, q, hB, hq, hfit => by
    subst hq
    simp only [ByteBuffer.writeChars, ByteBuffer.write_u8]
    rw [write_chain hB rfl (by simp only [List.length_cons] at hfit; omega)]
    dsimp only
    rw [writeChars_chain cs hB
      (by simp only [List.length_append, List.length_cons, List.length_nil]; omega)
      (by simp only [List.length_append, List.length_cons, List.length_nil,
            List.length_cons] at hfit ⊢; omega)]
    exact pairbb_eq (by simp [List.append_assoc])
      (by simp only [List.length_append, List.length_cons, List.length_nil]; omega)

theorem writeParts_chain : ∀ (parts : List RStr) {B : List Nat} {p : Nat}
    {done : List Nat} {q : Nat},
    B.length = 512 → q = p + done.length →
    p + done.length + (encPartsCore parts).length ≤ 512 →
    ByteBuffer.writeParts parts ⟨spliceAt B p done, q⟩ =
      (.ok (), ⟨spliceAt B p (done ++ encPartsCore parts),
        p + done.length + (encPartsCore parts).length⟩)
  | [], B, p, done, q, hB, hq, hfit => by
    subst hq
    simp only [ByteBuffer.writeParts, encPartsCore, List.append_nil, List.length_nil,
      Nat.add_zero]
  | part :: rest, B, p, done, q, hB, hq, hfit => by
    subst hq
    have hlen : (encPartsCore (part :: rest)).length =
        1 + part.length + (encPartsCore rest).length := by
      simp [encPartsCore]
      omega
    simp only [ByteBuffer.writeParts, ByteBuffer.write_u8]
    rw [write_chain hB rfl (by rw [hlen] at hfit; omega)]
    dsimp only
    rw [writeChars_chain part hB
      (by simp only [List.length_append, List.length_cons, List.length_nil]; omega)
      (by simp only [List.length_append, List.length_cons, List.length_nil]
          rw [hlen] at hfit; omega)]
    dsimp only
    rw [writeParts_chain rest hB
      (by simp only [List.length_append, List.length_cons, List.length_nil,
            List.length_map]; omega)
      (by simp only [List.length_append, List.length_cons, List.length_nil,
            List.length_map]
          rw [hlen] at hfit; omega)]
    refine pairbb_eq ?_ ?_
    · simp only [encPartsCore, List.append_assoc, List.cons_append, List.nil_append]
    · simp only [List.length_append, List.length_cons, List.length_nil, List.length_map]
      rw [hlen]
      omega

theorem write_qname_chain {s : RStr} {B : List Nat} {p : Nat} {done : List Nat} {q : Nat}
    (hB : B.length = 512) (hq : q = p + done.length)
    (hfit : p + done.length + (encQname s).length ≤ 512) :
    ByteBuffer.write_qname ⟨spliceAt B p done, q⟩ s =
      (.ok (), ⟨spliceAt B p (done ++ encQname s),
        p + done.length + (encQname s).length⟩) := by
  subst hq
  have hql : (encQname s).length = (encPartsCore (splitDots s)).length + 1 := by
    simp [encQname]
  simp only [ByteBuffer.write_qname]
  rw [writeParts_chain (splitDots s) hB rfl (by omega)]
  dsimp only [ByteBuffer.write_u8]
  rw [write_chain hB
    (by simp only [List.length_append]; omega)
    (by simp only [List.length_append]; omega)]
  refine pairbb_eq ?_ ?_
  · simp [encQname, List.append_assoc]
  · simp only [List.length_append]
    omega

theorem writeList_chain : ∀ (bsl : List Nat) {B : List Nat} {p : Nat}
    {done : List Nat} {q : Nat},
    B.length = 512 → q = p + done.length →
    p + done.length + bsl.length ≤ 512 →
    ByteBuffer.writeList bsl ⟨spliceAt B p done, q⟩ =
      ⟨spliceAt B p (done ++ bsl), p + done.length + bsl.length⟩
  | [], B, p, done, q, hB, hq, hfit => by
    subst hq
    simp only [ByteBuffer.writeList, List.append_nil, List.length_nil, Nat.add_zero]
  | b :: bs, B, p, done, q, hB, hq, hfit => by
    subst hq
    simp only [ByteBuffer.writeList, ByteBuffer.write_u8]
    rw [write_chain hB rfl (by simp only [List.length_cons] at hfit; omega)]
    dsimp only
    rw [writeList_chain bs hB
      (by simp only [List.length_append, List.length_cons, List.length_nil]; omega)
      (by simp only [List.length_append, List.length_cons, List.length_nil] at hfit ⊢
          omega)]
    exact bbmk_eq (by simp [List.append_assoc])
      (by simp only [List.length_append, List.length_cons, List.length_nil]; omega)

theorem u16Bytes_length {v : Nat} : (u16Bytes v).length = 2 := rfl

theorem u32Bytes_length {v : Nat} : (u32Bytes v).length = 4 := rfl

theorem u16Bytes_zero : u16Bytes 0 = [0, 0] := rfl

theorem encQuestion_length {q : DnsQuestion} :
    (encQuestion q).length = (encQname q.name).length + 4 := by
  simp [encQuestion, u16Bytes]

theorem encHeader_length {h : DnsHeader} : (encHeader h).length = 12 := by
  simp [encHeader, u16Bytes]

theorem header_write_chain {h : DnsHeader} {B : List Nat} {p : Nat}
    {done : List Nat} {q : Nat}
    (hB : B.length = 512) (hq : q = p + done.length)
    (hfit : p + done.length + 12 ≤ 512) :
    DnsHeader.write h ⟨spliceAt B p done, q⟩ =
      ⟨spliceAt B p (done ++ encHeader h), p + done.length + 12⟩ := by
  subst hq
  simp only [DnsHeader.write]
  rw [write_u16_chain hB rfl (by omega)]
  dsimp only
  rw [write_u16_chain hB
    (by simp only [List.length_append, u16Bytes_length]; omega)
    (by simp only [List.length_append, u16Bytes_length]; omega)]
  dsimp only
  rw [write_u16_chain hB
    (by simp only [List.length_append, u16Bytes_length]; omega)
    (by simp only [List.length_append, u16Bytes_length]; omega)]
  dsimp only
  rw [write_u16_chain hB
    (by simp only [List.length_append, u16Bytes_length]; omega)
    (by simp only [List.length_append, u16Bytes_length]; omega)]
  dsimp only
  rw [write_u16_chain hB
    (by simp only [List.length_append, u16Bytes_length]; omega)
    (by simp only [List.length_append, u16Bytes_length]; omega)]
  dsimp only
  rw [write_u16_chain hB
    (by simp only [List.length_append, u16Bytes_length]; omega)
    (by simp only [List.length_append, u16Bytes_length]; omega)]
  exact bbmk_eq (by simp [encHeader, List.append_assoc])
    (by simp only [List.length_append, u16Bytes_length]; omega)

theorem question_write_chain {qu : DnsQuestion} {B : List Nat} {p : Nat}
    {done : List Nat} {q : Nat}
    (hB : B.length = 512) (hq : q = p + done.length)
    (hfit : p + done.length + (encQuestion qu).length ≤ 512) :
    DnsQuestion.write qu ⟨spliceAt B p done, q⟩ =
      ⟨spliceAt B p (done ++ encQuestion qu),
        p + done.length + (encQuestion qu).length⟩ := by
  subst hq
  rw [encQuestion_length] at hfit
  simp only [DnsQuestion.write]
  rw [write_qname_chain hB rfl (by omega)]
  dsimp only
  rw [write_u16_chain hB
    (by simp only [List.length_append]; omega)
    (by simp only [List.length_append]; omega)]
  dsimp only
  rw [write_u16_chain hB
    (by simp only [List.length_append, u16Bytes_length]; omega)
    (by simp only [List.length_append, u16Bytes_length]; omega)]
  exact bbmk_eq (by simp [encQuestion, List.append_assoc])
    (by simp only [List.length_append, u16Bytes_length, encQuestion_length]; omega)

theorem patch_two {X eNs : List Nat} {a b : Nat} :
    (((X ++ [0, 0]) ++ eNs).set X.length a).set (X.length + 1) b =
      (X ++ [a, b]) ++ eNs := by
  rw [set_append_left
      (by simp only [List.length_append, List.length_cons, List.length_nil]; omega),
    set_append_right (Nat.le_refl _)]
  simp only [Nat.sub_self, List.set_cons_zero]
  rw [set_append_left
      (by simp only [List.length_append, List.length_cons, List.length_nil]; omega),
    set_append_right (by omega)]
  have h1 : X.length + 1 - X.length = 1 := by omega
  rw [h1]
  simp only [List.set_cons_succ, List.set_cons_zero]

theorem record_write_chain {r : DnsRecord} {B : List Nat} {p : Nat}
    {done : List Nat} {q : Nat}
    (hB : B.length = 512) (hq : q = p + done.length)
    (hfit : p + done.length + (encRecord r).length ≤ 512) :
    DnsRecord.write r ⟨spliceAt B p done, q⟩ =
      ⟨spliceAt B p (done ++ encRecord r),
        p + done.length + (encRecord r).length⟩ := by
  subst hq
  cases r with
  | UNKNOWN d qt dl t =>
    simp only [DnsRecord.write, encRecord, List.append_nil, List.length_nil,
      Nat.add_zero]
  | A d addr t =>
    have hlen : (encRecord (.A d addr t)).length = (encQname d).length + 14 := by
      simp only [encRecord, List.length_append, u16Bytes_length, u32Bytes_length]
    rw [hlen] at hfit ⊢
    simp only [DnsRecord.write, QueryType.to_num]
    rw [write_qname_chain hB rfl (by omega)]
    dsimp only
    rw [write_u16_chain hB
      (by simp only [List.length_append]; omega)
      (by simp only [List.length_append]; omega)]
    dsimp only
    rw [write_u16_chain hB
      (by simp only [List.length_append, u16Bytes_length]; omega)
      (by simp only [List.length_append, u16Bytes_length]; omega)]
    dsimp only
    rw [write_u32_chain hB
      (by simp only [List.length_append, u16Bytes_length]; omega)
      (by simp only [List.length_append, u16Bytes_length]; omega)]
    dsimp only
    rw [write_u16_chain hB
      (by simp only [List.length_append, u16Bytes_length, u32Bytes_length]; omega)
      (by simp only [List.length_append, u16Bytes_length, u32Bytes_length]; omega)]
    dsimp only
    rw [write_u32_chain hB
      (by simp only [List.length_append, u16Bytes_length, u32Bytes_length]; omega)
      (by simp only [List.length_append, u16Bytes_length, u32Bytes_length]; omega)]
    exact bbmk_eq (by simp [encRecord, List.append_assoc])
      (by simp only [List.length_append, u16Bytes_length, u32Bytes_length]; omega)
  | AAAA d addr t =>
    have hlen : (encRecord (.AAAA d addr t)).length =
        (encQname d).length + 10 + addr.length := by
      simp only [encRecord, List.length_append, u16Bytes_length, u32Bytes_length]
    rw [hlen] at hfit ⊢
    simp only [DnsRecord.write, QueryType.to_num]
    rw [write_qname_chain hB rfl (by omega)]
    dsimp only
    rw [write_u16_chain hB
      (by simp only [List.length_append]; omega)
      (by simp only [List.length_append]; omega)]
    dsimp only
    rw [write_u16_chain hB
      (by simp only [List.length_append, u16Bytes_length]; omega)
      (by simp only [List.length_append, u16Bytes_length]; omega)]
    dsimp only
    rw [write_u32_chain hB
      (by simp only [List.length_append, u16Bytes_length]; omega)
      (by simp only [List.length_append, u16Bytes_length]; omega)]
    dsimp only
    rw [write_u16_chain hB
      (by simp only [List.length_append, u16Bytes_length, u32Bytes_length]; omega)
      (by simp only [List.length_append, u16Bytes_length, u32Bytes_length]; omega)]
    dsimp only
    rw [writeList_chain addr hB
      (by simp only [List.length_append, u16Bytes_length, u32Bytes_length]; omega)
      (by simp only [List.length_append, u16Bytes_length, u32Bytes_length]; omega)]
    exact bbmk_eq (by simp [encRecord, List.append_assoc])
      (by simp only [List.length_append, u16Bytes_length, u32Bytes_length]; omega)
  | NS d ns t =>
    have hlen : (encRecord (.NS d ns t)).length =
        (encQname d).length + (encQname ns).length + 10 := by
      simp only [encRecord, List.length_append, u16Bytes_length, u32Bytes_length]
      omega
    rw [hlen] at hfit ⊢
    simp only [DnsRecord.write, QueryType.to_num]
    rw [write_qname_chain hB rfl (by omega)]
    dsimp only
    rw [write_u16_chain hB
      (by simp only [List.length_append]; omega)
      (by simp only [List.length_append]; omega)]
    dsimp only
    rw [write_u16_chain hB
      (by simp only [List.length_append, u16Bytes_length]; omega)
      (by simp only [List.length_append, u16Bytes_length]; omega)]
    dsimp only
    rw [write_u32_chain hB
      (by simp only [List.length_append, u16Bytes_length]; omega)
      (by simp only [List.length_append, u16Bytes_length]; omega)]
    dsimp only
    rw [write_u16_chain hB
      (by simp only [List.length_append, u16Bytes_length, u32Bytes_length]; omega)
      (by simp only [List.length_append, u16Bytes_length, u32Bytes_length]; omega)]
    dsimp only
    rw [write_qname_chain hB
      (by simp only [List.length_append, u16Bytes_length, u32Bytes_length]; omega)
      (by simp only [List.length_append, u16Bytes_length, u32Bytes_length]; omega)]
    dsimp only
    rw [show p + ((((done ++ encQname d) ++ u16Bytes 2) ++ u16Bytes 1)).length + 4 =
        p + ((((done ++ encQname d) ++ u16Bytes 2) ++ u16Bytes 1) ++ u32Bytes t).length
      from by simp only [List.length_append, u16Bytes_length, u32Bytes_length]; omega]
    rw [set_u16_chain hB
      (by simp only [List.length_append, u16Bytes_length, u32Bytes_length]; omega)
      (by simp only [List.length_append, u16Bytes_length, u32Bytes_length]; omega)]
    rw [show p + (((((done ++ encQname d) ++ u16Bytes 2) ++ u16Bytes 1) ++ u32Bytes t)
          ++ u16Bytes 0).length + (encQname ns).length -
        (p + ((((done ++ encQname d) ++ u16Bytes 2) ++ u16Bytes 1) ++ u32Bytes t).length
          + 2) = (encQname ns).length
      from by simp only [List.length_append, u16Bytes_length, u32Bytes_length]; omega]
    rw [u16Bytes_zero, patch_two]
    dsimp only
    exact bbmk_eq (by simp [encRecord, u16Bytes, List.append_assoc])
      (by simp only [List.length_append, u16Bytes_length, u32Bytes_length,
            List.length_cons, List.length_nil]; omega)
  | CNAME d cname t =>
    have hlen : (encRecord (.CNAME d cname t)).length =
        (encQname d).length + (encQname cname).length + 10 := by
      simp only [encRecord, List.length_append, u16Bytes_length, u32Bytes_length]
      omega
    rw [hlen] at hfit ⊢
    simp only [DnsRecord.write, QueryType.to_num]
    rw [write_qname_chain hB rfl (by omega)]
    dsimp only
    rw [write_u16_chain hB
      (by simp only [List.length_append]; omega)
      (by simp only [List.length_append]; omega)]
    dsimp only
    rw [write_u16_chain hB
      (by simp only [List.length_append, u16Bytes_length]; omega)
      (by simp only [List.length_append, u16Bytes_length]; omega)]
    dsimp only
    rw [write_u32_chain hB
      (by simp only [List.length_append, u16Bytes_length]; omega)
      (by simp only [List.length_append, u16Bytes_length]; omega)]
    dsimp only
    rw [write_u16_chain hB
      (by simp only [List.length_append, u16Bytes_length, u32Bytes_length]; omega)
      (by simp only [List.length_append, u16Bytes_length, u32Bytes_length]; omega)]
    dsimp only
    rw [write_qname_chain hB
      (by simp only [List.length_append, u16Bytes_length, u32Bytes_length]; omega)
      (by simp only [List.length_append, u16Bytes_length, u32Bytes_length]; omega)]
    dsimp only
    rw [show p + ((((done ++ encQname d) ++ u16Bytes 5) ++ u16Bytes 1)).length + 4 =
        p + ((((done ++ encQname d) ++ u16Bytes 5) ++ u16Bytes 1) ++ u32Bytes t).length
      from by simp only [List.length_append, u16Bytes_length, u32Bytes_length]; omega]
    rw [set_u16_chain hB
      (by simp only [List.length_append, u16Bytes_length, u32Bytes_length]; omega)
      (by simp only [List.length_append, u16Bytes_length, u32Bytes_length]; omega)]
    rw [show p + (((((done ++ encQname d) ++ u16Bytes 5) ++ u16Bytes 1) ++ u32Bytes t)
          ++ u16Bytes 0).length + (encQname cname).length -
        (p + ((((done ++ encQname d) ++ u16Bytes 5) ++ u16Bytes 1) ++ u32Bytes t).length
          + 2) = (encQname cname).length
      from by simp only [List.length_append, u16Bytes_length, u32Bytes_length]; omega]
    rw [u16Bytes_zero, patch_two]
    dsimp only
    exact bbmk_eq (by simp [encRecord, u16Bytes, List.append_assoc])
      (by simp only [List.length_append, u16Bytes_length, u32Bytes_length,
            List.length_cons, List.length_nil]; omega)
  | MX d pref ex t =>
    have hlen : (encRecord (.MX d pref ex t)).length =
        (encQname d).length + (encQname ex).length + 12 := by
      simp only [encRecord, List.length_append, u16Bytes_length, u32Bytes_length]
      omega
    rw [hlen] at hfit ⊢
    simp only [DnsRecord.write, QueryType.to_num]
    rw [write_qname_chain hB rfl (by omega)]
    dsimp only
    rw [write_u16_chain hB
      (by simp only [List.length_append]; omega)
      (by simp only [List.length_append]; omega)]
    dsimp only
    rw [write_u16_chain hB
      (by simp only [List.length_append, u16Bytes_length]; omega)
      (by simp only [List.length_append, u16Bytes_length]; omega)]
    dsimp only
    rw [write_u32_chain hB
      (by simp only [List.length_append, u16Bytes_length]; omega)
      (by simp only [List.length_append, u16Bytes_length]; omega)]
    dsimp only
    rw [write_u16_chain hB
      (by simp only [List.length_append, u16Bytes_length, u32Bytes_length]; omega)
      (by simp only [List.length_append, u16Bytes_length, u32Bytes_length]; omega)]
    dsimp only
    rw [write_u16_chain hB
      (by simp only [List.length_append, u16Bytes_length, u32Bytes_length]; omega)
      (by simp only [List.length_append, u16Bytes_length, u32Bytes_length]; omega)]
    dsimp only
    rw [write_qname_chain hB
      (by simp only [List.length_append, u16Bytes_length, u32Bytes_length]; omega)
      (by simp only [List.length_append, u16Bytes_length, u32Bytes_length]; omega)]
    dsimp only
    rw [show p + ((((done ++ encQname d) ++ u16Bytes 15) ++ u16Bytes 1)).length + 4 =
        p + ((((done ++ encQname d) ++ u16Bytes 15) ++ u16Bytes 1) ++ u32Bytes t).length
      from by simp only [List.length_append, u16Bytes_length, u32Bytes_length]; omega]
    rw [set_u16_chain hB
      (by simp only [List.length_append, u16Bytes_length, u32Bytes_length]; omega)
      (by simp only [List.length_append, u16Bytes_length, u32Bytes_length]; omega)]
    rw [show p + ((((((done ++ encQname d) ++ u16Bytes 15) ++ u16Bytes 1) ++ u32Bytes t)
          ++ u16Bytes 0) ++ u16Bytes pref).length + (encQname ex).length -
        (p + ((((done ++ encQname d) ++ u16Bytes 15) ++ u16Bytes 1) ++ u32Bytes t).length
          + 2) = 2 + (encQname ex).length
      from by simp only [List.length_append, u16Bytes_length, u32Bytes_length]; omega]
    rw [u16Bytes_zero]
    rw [show ((((((done ++ encQname d) ++ u16Bytes 15) ++ u16Bytes 1) ++ u32Bytes t)
          ++ [0, 0]) ++ u16Bytes pref) ++ encQname ex =
        ((((((done ++ encQname d) ++ u16Bytes 15) ++ u16Bytes 1) ++ u32Bytes t)
          ++ [0, 0]) ++ (u16Bytes pref ++ encQname ex)) from by
      simp [List.append_assoc]]
    rw [patch_two]
    dsimp only
    exact bbmk_eq (by simp [encRecord, u16Bytes, List.append_assoc])
      (by simp only [List.length_append, u16Bytes_length, u32Bytes_length,
            List.length_cons, List.length_nil]; omega)

theorem encList_nil {α : Type} (f : α → List Nat) : encList f [] = [] := rfl

theorem encList_cons {α : Type} (f : α → List Nat) (x : α) (l : List α) :
    encList f (x :: l) = f x ++ encList f l := by
  simp [encList]

theorem writeQuestions_chain : ∀ (qs : List DnsQuestion) {B : List Nat} {p : Nat}
    {done : List Nat} {q : Nat},
    B.length = 512 → q = p + done.length →
    p + done.length + (encList encQuestion qs).length ≤ 512 →
    writeQuestions qs ⟨spliceAt B p done, q⟩ =
      ⟨spliceAt B p (done ++ encList encQuestion qs),
        p + done.length + (encList encQuestion qs).length⟩
  | [], B, p, done, q, hB, hq, hfit => by
    subst hq
    simp only [writeQuestions, encList_nil, List.append_nil, List.length_nil,
      Nat.add_zero]
  | qu :: qs, B, p, done, q, hB, hq, hfit => by
    subst hq
    rw [encList_cons] at hfit ⊢
    simp only [writeQuestions]
    rw [question_write_chain hB rfl
      (by simp only [List.length_append] at hfit; omega)]
    rw [writeQuestions_chain qs hB
      (by simp only [List.length_append]; omega)
      (by simp only [List.length_append] at hfit ⊢; omega)]
    exact bbmk_eq (by simp [List.append_assoc])
      (by simp only [List.length_append]; omega)

theorem writeRecords_chain : ∀ (rs : List DnsRecord) {B : List Nat} {p : Nat}
    {done : List Nat} {q : Nat},
    B.length = 512 → q = p + done.length →
    p + done.length + (encList encRecord rs).length ≤ 512 →
    writeRecords rs ⟨spliceAt B p done, q⟩ =
      ⟨spliceAt B p (done ++ encList encRecord rs),
        p + done.length + (encList encRecord rs).length⟩
  | [], B, p, done, q, hB, hq, hfit => by
    subst hq
    simp only [writeRecords, encList_nil, List.append_nil, List.length_nil,
      Nat.add_zero]
  | r :: rs, B, p, done, q, hB, hq, hfit => by
    subst hq
    rw [encList_cons] at hfit ⊢
    simp only [writeRecords]
    rw [record_write_chain hB rfl
      (by simp only [List.length_append] at hfit; omega)]
    rw [writeRecords_chain rs hB
      (by simp only [List.length_append]; omega)
      (by simp only [List.length_append] at hfit ⊢; omega)]
    exact bbmk_eq (by simp [List.append_assoc])
      (by simp only [List.length_append]; omega)

theorem packet_write_chain {pk : DnsPacket} {B : List Nat} {p : Nat}
    {done : List Nat} {q : Nat}
    (hB : B.length = 512) (hq : q = p + done.length)
    (hfit : p + done.length + (encPacket pk).length ≤ 512) :
    DnsPacket.write pk ⟨spliceAt B p done, q⟩ =
      ⟨spliceAt B p (done ++ encPacket pk),
        p + done.length + (encPacket pk).length⟩ := by
  subst hq
  have hPlen : (encPacket pk).length = 12 +
      (encList encQuestion pk.questions).length +
      (encList encRecord pk.answers).length +
      (encList encRecord pk.authorities).length +
      (encList encRecord pk.resources).length := by
    simp only [encPacket, List.length_append, encHeader_length]
    try omega
  simp only [DnsPacket.write]
  rw [header_write_chain hB rfl (by omega)]
  rw [writeQuestions_chain pk.questions hB
    (by simp only [List.length_append, encHeader_length]; omega)
    (by simp only [List.length_append, encHeader_length]; omega)]
  rw [writeRecords_chain pk.answers hB
    (by simp only [List.length_append, encHeader_length]; omega)
    (by simp only [List.length_append, encHeader_length]; omega)]
  rw [writeRecords_chain pk.authorities hB
    (by simp only [List.length_append, encHeader_length]; omega)
    (by simp only [List.length_append, encHeader_length]; omega)]
  rw [writeRecords_chain pk.resources hB
    (by simp only [List.length_append, encHeader_length]; omega)
    (by simp only [List.length_append, encHeader_length]; omega)]
  exact bbmk_eq (by simp [encPacket, List.append_assoc])
    (by simp only [List.length_append, encHeader_length]; omega)

theorem packet_write_new {pk : DnsPacket} (hfit : (encPacket pk).length ≤ 512) :
    DnsPacket.write pk ByteBuffer.new =
      ⟨spliceAt (List.replicate 512 0) 0 (encPacket pk),
        (encPacket pk).length⟩ := by
  have h0 : ByteBuffer.new = ⟨spliceAt (List.replicate 512 0) 0 [], 0⟩ := by
    simp [ByteBuffer.new, spliceAt]
  rw [h0, packet_write_chain (by simp) (by simp) (by simp; omega)]
  exact bbmk_eq (by simp) (by simp)

theorem bytesAt_head {B : List Nat} {p b : Nat} {bs : List Nat}
    (h : bytesAt B p (b :: bs)) :
    B.getD p 0 = b ∧ bytesAt B (p + 1) bs ∧ p < B.length := by
  have h' : bytesAt B p ([b] ++ bs) := h
  obtain ⟨h1, h2⟩ := bytesAt_split h'
  obtain ⟨h1l, h1v⟩ := h1
  have hb := h1v 0 (by simp)
  simp only [Nat.add_zero, List.getD_cons_zero] at hb
  simp only [List.length_cons, List.length_nil, Nat.zero_add] at h1l h2
  exact ⟨hb, h2, by omega⟩

theorem read_spec {B : List Nat} {q b : Nat} {bs : List Nat}
    (hB : B.length = 512) (hb : bytesAt B q (b :: bs)) :
    ByteBuffer.read ⟨B, q⟩ = .ok (b, ⟨B, q + 1⟩) := by
  obtain ⟨hv, _, hlt⟩ := bytesAt_head hb
  rw [ByteBuffer.read, if_neg (by simp only [not_le]; omega)]
  simp only [ByteBuffer.step]
  rw [hv]

theorem get_spec {B : List Nat} {q pos b : Nat} {bs : List Nat}
    (hB : B.length = 512) (hb : bytesAt B pos (b :: bs)) :
    ByteBuffer.get ⟨B, q⟩ pos = .ok b := by
  obtain ⟨hv, _, hlt⟩ := bytesAt_head hb
  rw [ByteBuffer.get, if_neg (by simp only [not_le]; omega)]
  rw [hv]

theorem get_range_spec {B : List Nat} {q start : Nat} {bs : List Nat}
    (hB : B.length = 512) (hb : bytesAt B start bs)
    (hstop : start + bs.length < 512) :
    ByteBuffer.get_range ⟨B, q⟩ start bs.length = .ok bs := by
  rw [ByteBuffer.get_range, ByteBuffer.get_range_,
    if_neg (by simp only [not_or, not_le]; omega)]
  have heq : start + bs.length - start = bs.length := by omega
  rw [heq, slice_eq_of_bytesAt hb]

theorem read_u16_spec {B : List Nat} {q v : Nat} (hB : B.length = 512)
    (hv : v < 65536) (hb : bytesAt B q (u16Bytes v)) :
    ByteBuffer.read_u16 ⟨B, q⟩ = .ok (v, ⟨B, q + 2⟩) := by
  have hb' : bytesAt B q (((v >>> 8) % 256) :: [v &&& 0xFF]) := hb
  obtain ⟨h0, h1, _⟩ := bytesAt_head hb'
  rw [ByteBuffer.read_u16, read_spec hB hb']
  dsimp only
  rw [read_spec hB h1]
  dsimp only
  rw [u16_recompose hv, show q + 1 + 1 = q + 2 from by omega]

theorem read_u32_spec {B : List Nat} {q v : Nat} (hB : B.length = 512)
    (hv : v < 4294967296) (hb : bytesAt B q (u32Bytes v)) :
    ByteBuffer.read_u32 ⟨B, q⟩ = .ok (v, ⟨B, q + 4⟩) := by
  have hb' : bytesAt B q (((v >>> 24) &&& 0xFF) :: ((v >>> 16) &&& 0xFF) ::
      ((v >>> 8) &&& 0xFF) :: [v &&& 0xFF]) := hb
  obtain ⟨h0, h1, _⟩ := bytesAt_head hb'
  obtain ⟨h1v, h2, _⟩ := bytesAt_head h1
  obtain ⟨h2v, h3, _⟩ := bytesAt_head h2
  rw [ByteBuffer.read_u32, read_spec hB hb']
  dsimp only
  rw [read_spec hB h1]
  dsimp only
  rw [read_spec hB h2]
  dsimp only
  rw [read_spec hB h3]
  dsimp only
  rw [u32_recompose hv, show q + 1 + 1 + 1 + 1 = q + 4 from by omega]

theorem readBytes_spec : ∀ (bs : List Nat) {B : List Nat} {q : Nat},
    B.length = 512 → bytesAt B q bs →
    ByteBuffer.readBytes bs.length ⟨B, q⟩ = .ok (bs, ⟨B, q + bs.length⟩)
  | [], B, q, hB, hb => by
    simp only [List.length_nil, ByteBuffer.readBytes, Nat.add_zero]
  | b :: bs, B, q, hB, hb => by
    obtain ⟨h0, h1, _⟩ := bytesAt_head hb
    simp only [List.length_cons, ByteBuffer.readBytes]
    rw [read_spec hB hb]
    dsimp only
    rw [readBytes_spec bs hB h1]
    dsimp only
    rw [show q + 1 + bs.length = q + (bs.length + 1) from by omega]

theorem lossyLower_mod (c : Nat) (hc : c < 128) :
    lossyLower (c % 256) = asciiLower c := by
  rw [Nat.mod_eq_of_lt (by omega)]
  rw [lossyLower, asciiLower]
  by_cases h : 65 ≤ c ∧ c ≤ 90
  · rw [if_pos h, if_pos h]
  · rw [if_neg h, if_neg h, if_pos hc]

theorem and192_of_le63 {x : Nat} (hx : x ≤ 63) : x &&& 192 = 0 := by
  have h : ∀ y, y < 64 → y &&& 192 = 0 := by decide
  exact h x (by omega)

theorem splitDots_ne_nil : ∀ (s : RStr), splitDots s ≠ []
  | [] => by simp [splitDots]
  | c :: rest => by
    by_cases hc : c = 46
    · simp [splitDots, hc]
    · simp only [splitDots, if_neg hc]
      cases h : splitDots rest with
      | nil => simp
      | cons r rs => simp

theorem asciiLower_46 : asciiLower 46 = 46 := by
  rw [asciiLower, if_neg (by omega)]

theorem joinFrom_splitDots : ∀ (s : RStr),
    joinFrom [] (splitDots s) = s.map asciiLower ∧
    joinFrom [46] (splitDots s) = 46 :: s.map asciiLower
  | [] => by
    constructor <;> simp [splitDots, joinFrom]
  | c :: rest => by
    obtain ⟨ih1, ih2⟩ := joinFrom_splitDots rest
    by_cases hc : c = 46
    · subst hc
      simp only [splitDots, if_pos rfl, joinFrom, List.map_nil, List.nil_append,
        List.map_cons, asciiLower_46]
      exact ⟨ih2, by rw [ih2]; rfl⟩
    · simp only [splitDots, if_neg hc]
      cases h : splitDots rest with
      | nil => exact absurd h (splitDots_ne_nil rest)
      | cons r rs =>
        rw [h] at ih1 ih2
        simp only [joinFrom, List.map_cons, List.nil_append, List.cons_append,
          List.append_assoc] at ih1 ih2 ⊢
        constructor
        · rw [← ih1]
        · rw [← ih1]

theorem encPartsCore_length_ge : ∀ (parts : List RStr),
    parts.length ≤ (encPartsCore parts).length
  | [] => Nat.le_refl _
  | p :: rest => by
    have ih := encPartsCore_length_ge rest
    simp only [List.length_cons, encPartsCore, List.length_append, List.length_map]
    omega

theorem get_spec_of_buf {bb : ByteBuffer} {B : List Nat} {pos b : Nat}
    {bs : List Nat} (hB : B.length = 512) (hbuf : bb.buffer = B)
    (hb : bytesAt B pos (b :: bs)) :
    bb.get pos = .ok b := by
  obtain ⟨hv, _, hlt⟩ := bytesAt_head hb
  rw [ByteBuffer.get, if_neg (by simp only [not_le]; omega), hbuf, hv]

theorem get_range_spec_of_buf {bb : ByteBuffer} {B : List Nat} {start : Nat}
    {bs : List Nat} (hB : B.length = 512) (hbuf : bb.buffer = B)
    (hb : bytesAt B start bs) (hstop : start + bs.length < 512) :
    bb.get_range start bs.length = .ok bs := by
  rw [ByteBuffer.get_range, ByteBuffer.get_range_,
    if_neg (by simp only [not_or, not_le]; omega), hbuf]
  have heq : start + bs.length - start = bs.length := by omega
  rw [heq, slice_eq_of_bytesAt hb]

theorem readQnameGo_spec : ∀ (parts : List RStr) (fuel : Nat) {B : List Nat}
    {q : Nat} (acc delim : RStr) (jump : Bool) (jumps : Nat) (bb : ByteBuffer),
    B.length = 512 → bb.buffer = B →
    (∀ part ∈ parts, 1 ≤ part.length ∧ part.length ≤ 63 ∧ ∀ c ∈ part, c < 128) →
    bytesAt B q (encPartsCore parts ++ [0]) →
    jumps ≤ 5 → parts.length + 1 ≤ fuel →
    bb.readQnameGo fuel q jump jumps acc delim =
      .ok (acc ++ joinFrom delim parts,
        if !jump then bb.seek (q + (encPartsCore parts).length + 1) else bb)
  | parts, 0, B, q, acc, delim, jump, jumps, bb, hB, hbuf, hparts, hb, hj, hfuel =>
    absurd hfuel (Nat.not_succ_le_zero _)
  | [], fuel + 1, B, q, acc, delim, jump, jumps, bb, hB, hbuf, hparts, hb, hj,
      hfuel => by
    have hb0 : bytesAt B q (0 :: ([] : List Nat)) := hb
    simp only [ByteBuffer.readQnameGo]
    rw [get_spec_of_buf hB hbuf hb0]
    dsimp only
    rw [if_neg (by omega), if_neg (by decide), if_pos rfl]
    simp only [encPartsCore, joinFrom, List.append_nil, List.length_nil,
      Nat.add_zero]
  | part :: rest, fuel + 1, B, q, acc, delim, jump, jumps, bb, hB, hbuf, hparts,
      hb, hj, hfuel => by
    obtain ⟨hp1, hp63, hpc⟩ := hparts part (List.mem_cons_self part rest)
    have hrest : ∀ pa ∈ rest, 1 ≤ pa.length ∧ pa.length ≤ 63 ∧
        ∀ c ∈ pa, c < 128 := fun pa hpa => hparts pa (List.mem_cons_of_mem _ hpa)
    have hb1 : bytesAt B q ((part.length % 256) ::
        (part.map (· % 256) ++ (encPartsCore rest ++ [0]))) := by
      have : encPartsCore (part :: rest) ++ [0] = (part.length % 256) ::
          (part.map (· % 256) ++ (encPartsCore rest ++ [0])) := by
        simp [encPartsCore, List.append_assoc]
      rwa [this] at hb
    obtain ⟨hbyte, htail, hqlt⟩ := bytesAt_head hb1
    obtain ⟨hlbl, hrest2⟩ := bytesAt_split htail
    have hLmod : part.length % 256 = part.length := Nat.mod_eq_of_lt (by omega)
    have hmaplen : (part.map (· % 256)).length = part.length := by
      rw [List.length_map]
    have hbound : q + 1 + part.length < 512 := by
      obtain ⟨hle, _⟩ := hrest2
      simp only [List.length_append, List.length_cons, List.length_nil,
        hmaplen] at hle ⊢
      have h2 := encPartsCore_length_ge rest
      omega
    simp only [ByteBuffer.readQnameGo]
    rw [get_spec_of_buf hB hbuf hb1]
    dsimp only
    rw [hLmod, if_neg (by omega),
      if_neg (by rw [and192_of_le63 hp63]; omega),
      if_neg (by omega)]
    rw [show part.length = (part.map (· % 256)).length from hmaplen.symm]
    rw [get_range_spec_of_buf hB hbuf hlbl (by rw [hmaplen]; omega)]
    dsimp only
    rw [hmaplen] at hrest2 ⊢
    rw [readQnameGo_spec rest fuel
      (acc ++ delim ++ (part.map (· % 256)).map lossyLower) [46] jump jumps bb
      hB hbuf hrest hrest2 hj (by simp only [List.length_cons] at hfuel; omega)]
    have hmap : (part.map (· % 256)).map lossyLower = part.map asciiLower := by
      rw [List.map_map]
      exact List.map_congr_left (fun c hc => lossyLower_mod c (hpc c hc))
    rw [hmap]
    simp only [joinFrom, Prod.mk.injEq]
    refine congrArg Except.ok (Prod.ext ?_ ?_)
    · simp [List.append_assoc]
    · cases jump with
      | true => rfl
      | false =>
        simp only [ByteBuffer.seek, Bool.not_false, if_pos]
        simp only [encPartsCore, List.length_cons, List.length_append,
          List.length_map]
        congr 1
        omega

theorem read_qname_spec {B : List Nat} {q : Nat} {s : RStr}
    (hB : B.length = 512) (hv : ValidQname s) (hb : bytesAt B q (encQname s)) :
    ByteBuffer.read_qname ⟨B, q⟩ =
      .ok (lowerStr s, ⟨B, q + (encQname s).length⟩) := by
  have hb' : bytesAt B q (encPartsCore (splitDots s) ++ [0]) := hb
  have hfuel : (splitDots s).length + 1 ≤ 4096 := by
    obtain ⟨hle, _⟩ := hb'
    simp only [List.length_append, List.length_cons, List.length_nil] at hle
    have h1 := encPartsCore_length_ge (splitDots s)
    omega
  rw [ByteBuffer.read_qname]
  rw [show (⟨B, q⟩ : ByteBuffer).position = q from rfl]
  rw [readQnameGo_spec (splitDots s) 4096 [] [] false 0 ⟨B, q⟩ hB rfl hv hb'
    (by omega) hfuel]
  simp only [List.nil_append, Bool.not_false, if_pos, ByteBuffer.seek,
    (joinFrom_splitDots s).1]
  have hql : (encQname s).length = (encPartsCore (splitDots s)).length + 1 := by
    simp [encQname]
  rw [hql, lowerStr, show q + ((encPartsCore (splitDots s)).length + 1) =
    q + (encPartsCore (splitDots s)).length + 1 from by omega]

/-- The flag byte `a` of `DnsHeader::write` as a function of the raw
    fields. -/
def flagAExpr (rd tc aa : Bool) (op : Nat) (resp : Bool) : Nat :=
  ((((if rd then 1 <<< 0 else 0) |||
     (if tc then 1 <<< 1 else 0)) |||
     (if aa then 1 <<< 2 else 0)) |||
     (op <<< 3)) |||
     (if resp then 1 <<< 7 else 0)

/-- The flag byte `b` of `DnsHeader::write` as a function of the raw
    fields. -/
def flagBExpr (rc : ResultCode) (cd ad z ra : Bool) : Nat :=
  (((rc.to_num |||
     (if cd then 1 <<< 4 else 0)) |||
     (if ad then 1 <<< 5 else 0)) |||
     (if z then 1 <<< 6 else 0)) |||
     (if ra then 1 <<< 7 else 0)

theorem flagA_recover : ∀ op : Nat, op < 16 → ∀ (rd tc aa resp : Bool),
    decide (flagAExpr rd tc aa op resp &&& (1 <<< 0) > 0) = rd ∧
    decide (flagAExpr rd tc aa op resp &&& (1 <<< 1) > 0) = tc ∧
    decide (flagAExpr rd tc aa op resp &&& (1 <<< 2) > 0) = aa ∧
    ((flagAExpr rd tc aa op resp >>> 3) &&& 0x0F) = op ∧
    decide (flagAExpr rd tc aa op resp &&& (1 <<< 7) > 0) = resp ∧
    flagAExpr rd tc aa op resp < 256 := by decide

theorem flagB_recover : ∀ (rc : ResultCode) (cd ad z ra : Bool),
    ResultCode.from_num (flagBExpr rc cd ad z ra &&& 0x0F) = rc ∧
    decide (flagBExpr rc cd ad z ra &&& (1 <<< 4) > 0) = cd ∧
    decide (flagBExpr rc cd ad z ra &&& (1 <<< 5) > 0) = ad ∧
    decide (flagBExpr rc cd ad z ra &&& (1 <<< 6) > 0) = z ∧
    decide (flagBExpr rc cd ad z ra &&& (1 <<< 7) > 0) = ra ∧
    flagBExpr rc cd ad z ra < 256 := by
  intro rc
  cases rc <;> decide

theorem flagA_facts (h : DnsHeader) (hop : h.opcode < 16) :
    decide (h.flagA &&& (1 <<< 0) > 0) = h.recursion_desired ∧
    decide (h.flagA &&& (1 <<< 1) > 0) = h.truncated_message ∧
    decide (h.flagA &&& (1 <<< 2) > 0) = h.authoritative_answer ∧
    ((h.flagA >>> 3) &&& 0x0F) = h.opcode ∧
    decide (h.flagA &&& (1 <<< 7) > 0) = h.response ∧
    h.flagA < 256 := by
  obtain ⟨id, rd, tc, aa, op, resp, rc, cd, ad, z, ra, qs, an, ae, re⟩ := h
  exact flagA_recover op hop rd tc aa resp

theorem flagB_facts (h : DnsHeader) :
    ResultCode.from_num (h.flagB &&& 0x0F) = h.rescode ∧
    decide (h.flagB &&& (1 <<< 4) > 0) = h.checking_disabled ∧
    decide (h.flagB &&& (1 <<< 5) > 0) = h.authed_data ∧
    decide (h.flagB &&& (1 <<< 6) > 0) = h.z ∧
    decide (h.flagB &&& (1 <<< 7) > 0) = h.recursion_available ∧
    h.flagB < 256 := by
  obtain ⟨id, rd, tc, aa, op, resp, rc, cd, ad, z, ra, qs, an, ae, re⟩ := h
  exact flagB_recover rc cd ad z ra

theorem u16_split {a b : Nat} (ha : a < 256) (hb : b < 256) :
    ((a <<< 8) ||| b) < 65536 ∧ (((a <<< 8) ||| b) >>> 8) % 256 = a ∧
      ((((a <<< 8) ||| b) &&& 0xFF) % 256) = b := by
  have e : (2 : Nat) ^ 8 = 256 := by norm_num
  have h := lor_shl_eq_add (a := a) (k := 8) (b := b) (by omega)
  rw [e] at h
  rw [h]
  refine ⟨by omega, ?_, ?_⟩
  · rw [Nat.shiftRight_eq_div_pow, e]
    omega
  · rw [and_255_eq_mod]
    omega

theorem header_read_spec {B : List Nat} {q : Nat} {h : DnsHeader}
    (hB : B.length = 512) (hwf : h.WF) (hb : bytesAt B q (encHeader h)) :
    DnsHeader.read ⟨B, q⟩ = .ok (h, ⟨B, q + 12⟩) := by
  obtain ⟨hid, hop, hqs, han, hae, hre⟩ := hwf
  obtain ⟨ha1, ha2, ha3, ha4, ha5, hfa256⟩ := flagA_facts h hop
  obtain ⟨hb1', hb2', hb3', hb4', hb5', hfb256⟩ := flagB_facts h
  obtain ⟨hflt, hfhi, hflo⟩ := u16_split hfa256 hfb256
  have hb' : bytesAt B q (u16Bytes h.id ++
      (u16Bytes ((h.flagA <<< 8) ||| h.flagB) ++ (u16Bytes h.questions ++
      (u16Bytes h.answers ++ (u16Bytes h.authoritative_entries ++
        u16Bytes h.resource_entries))))) := by
    have he : encHeader h = u16Bytes h.id ++
        (u16Bytes ((h.flagA <<< 8) ||| h.flagB) ++ (u16Bytes h.questions ++
        (u16Bytes h.answers ++ (u16Bytes h.authoritative_entries ++
          u16Bytes h.resource_entries)))) := by
      simp [encHeader, List.append_assoc]
    rwa [he] at hb
  obtain ⟨hc1, hr1⟩ := bytesAt_split hb'
  rw [u16Bytes_length] at hr1
  obtain ⟨hc2, hr2⟩ := bytesAt_split hr1
  rw [u16Bytes_length] at hr2
  obtain ⟨hc3, hr3⟩ := bytesAt_split hr2
  rw [u16Bytes_length] at hr3
  obtain ⟨hc4, hr4⟩ := bytesAt_split hr3
  rw [u16Bytes_length] at hr4
  obtain ⟨hc5, hc6⟩ := bytesAt_split hr4
  rw [u16Bytes_length] at hc6
  simp only [DnsHeader.read]
  rw [read_u16_spec hB hid hc1]
  dsimp only
  rw [read_u16_spec hB hflt hc2]
  dsimp only
  rw [read_u16_spec hB hqs hc3]
  dsimp only
  rw [read_u16_spec hB han hc4]
  dsimp only
  rw [read_u16_spec hB hae hc5]
  dsimp only
  rw [read_u16_spec hB hre hc6]
  dsimp only
  rw [hfhi, hflo, ha1, ha2, ha3, ha4, ha5, hb1', hb2', hb3', hb4', hb5']

theorem question_read_spec {B : List Nat} {q : Nat} {qu : DnsQuestion}
    (hB : B.length = 512) (hwf : qu.WF) (hb : bytesAt B q (encQuestion qu)) :
    DnsQuestion.read ⟨B, q⟩ =
      .ok (qu.lower, ⟨B, q + (encQuestion qu).length⟩) := by
  obtain ⟨hvq, hqt, hcanon⟩ := hwf
  have hb' : bytesAt B q (encQname qu.name ++
      (u16Bytes qu.qtype.to_num ++ u16Bytes 1)) := by
    have he : encQuestion qu = encQname qu.name ++
        (u16Bytes qu.qtype.to_num ++ u16Bytes 1) := by
      simp [encQuestion, List.append_assoc]
    rwa [he] at hb
  obtain ⟨hc1, hr1⟩ := bytesAt_split hb'
  obtain ⟨hc2, hc3⟩ := bytesAt_split hr1
  rw [u16Bytes_length] at hc3
  simp only [DnsQuestion.read]
  rw [read_qname_spec hB hvq hc1]
  dsimp only
  rw [read_u16_spec hB hqt hc2]
  dsimp only
  rw [read_u16_spec hB (show (1 : Nat) < 65536 from by omega) hc3]
  dsimp only
  rw [hcanon]
  refine congrArg Except.ok (Prod.ext ?_ ?_)
  · simp [DnsQuestion.lower]
  · exact bbmk_eq rfl
      (by simp only [encQuestion, List.length_append, u16Bytes_length]; omega)

theorem record_read_spec {B : List Nat} {q : Nat} {r : DnsRecord}
    (hB : B.length = 512) (hwf : r.WF) (hb : bytesAt B q (encRecord r)) :
    DnsRecord.read ⟨B, q⟩ = .ok (r.lower, ⟨B, q + (encRecord r).length⟩) := by
  cases r with
  | UNKNOWN d qt dl t => exact hwf.elim
  | A d a t =>
    obtain ⟨hvd, ha32, ht32⟩ := hwf
    have hb' : bytesAt B q (encQname d ++ (u16Bytes 1 ++ (u16Bytes 1 ++
        (u32Bytes t ++ (u16Bytes 4 ++ u32Bytes a))))) := by
      have he : encRecord (.A d a t) = encQname d ++ (u16Bytes 1 ++ (u16Bytes 1 ++
          (u32Bytes t ++ (u16Bytes 4 ++ u32Bytes a)))) := by
        simp [encRecord, List.append_assoc]
      rwa [he] at hb
    obtain ⟨hc1, hr1⟩ := bytesAt_split hb'
    obtain ⟨hc2, hr2⟩ := bytesAt_split hr1
    rw [u16Bytes_length] at hr2
    obtain ⟨hc3, hr3⟩ := bytesAt_split hr2
    rw [u16Bytes_length] at hr3
    obtain ⟨hc4, hr4⟩ := bytesAt_split hr3
    rw [u32Bytes_length] at hr4
    obtain ⟨hc5, hc6⟩ := bytesAt_split hr4
    rw [u16Bytes_length] at hc6
    simp only [DnsRecord.read]
    rw [read_qname_spec hB hvd hc1]
    dsimp only
    rw [read_u16_spec hB (by omega) hc2]
    dsimp only
    rw [read_u16_spec hB (by omega) hc3]
    dsimp only
    rw [read_u32_spec hB ht32 hc4]
    dsimp only
    rw [read_u16_spec hB (by omega) hc5]
    dsimp only
    rw [if_pos rfl, read_u32_spec hB ha32 hc6]
    dsimp only
    refine congrArg Except.ok (Prod.ext ?_ ?_)
    · simp [DnsRecord.lower]
    · exact bbmk_eq rfl (by
        simp only [encRecord, List.length_append, u16Bytes_length,
          u32Bytes_length]
        omega)
  | NS d n t =>
    obtain ⟨hvd, hvn, ht32⟩ := hwf
    have hb' : bytesAt B q (encQname d ++ (u16Bytes 2 ++ (u16Bytes 1 ++
        (u32Bytes t ++ (u16Bytes (encQname n).length ++ encQname n))))) := by
      have he : encRecord (.NS d n t) = encQname d ++ (u16Bytes 2 ++
          (u16Bytes 1 ++ (u32Bytes t ++
            (u16Bytes (encQname n).length ++ encQname n)))) := by
        simp [encRecord, List.append_assoc]
      rwa [he] at hb
    have hens : (encQname n).length < 65536 := by
      obtain ⟨hle, _⟩ := hb'
      simp only [List.length_append, u16Bytes_length, u32Bytes_length] at hle
      omega
    obtain ⟨hc1, hr1⟩ := bytesAt_split hb'
    obtain ⟨hc2, hr2⟩ := bytesAt_split hr1
    rw [u16Bytes_length] at hr2
    obtain ⟨hc3, hr3⟩ := bytesAt_split hr2
    rw [u16Bytes_length] at hr3
    obtain ⟨hc4, hr4⟩ := bytesAt_split hr3
    rw [u32Bytes_length] at hr4
    obtain ⟨hc5, hc6⟩ := bytesAt_split hr4
    rw [u16Bytes_length] at hc6
    simp only [DnsRecord.read]
    rw [read_qname_spec hB hvd hc1]
    dsimp only
    rw [read_u16_spec hB (by omega) hc2]
    dsimp only
    rw [read_u16_spec hB (by omega) hc3]
    dsimp only
    rw [read_u32_spec hB ht32 hc4]
    dsimp only
    rw [read_u16_spec hB hens hc5]
    dsimp only
    rw [if_neg (by omega), if_pos rfl, read_qname_spec hB hvn hc6]
    dsimp only
    refine congrArg Except.ok (Prod.ext ?_ ?_)
    · simp [DnsRecord.lower]
    · exact bbmk_eq rfl (by
        simp only [encRecord, List.length_append, u16Bytes_length,
          u32Bytes_length]
        omega)
  | CNAME d n t =>
    obtain ⟨hvd, hvn, ht32⟩ := hwf
    have hb' : bytesAt B q (encQname d ++ (u16Bytes 5 ++ (u16Bytes 1 ++
        (u32Bytes t ++ (u16Bytes (encQname n).length ++ encQname n))))) := by
      have he : encRecord (.CNAME d n t) = encQname d ++ (u16Bytes 5 ++
          (u16Bytes 1 ++ (u32Bytes t ++
            (u16Bytes (encQname n).length ++ encQname n)))) := by
        simp [encRecord, List.append_assoc]
      rwa [he] at hb
    have hens : (encQname n).length < 65536 := by
      obtain ⟨hle, _⟩ := hb'
      simp only [List.length_append, u16Bytes_length, u32Bytes_length] at hle
      omega
    obtain ⟨hc1, hr1⟩ := bytesAt_split hb'
    obtain ⟨hc2, hr2⟩ := bytesAt_split hr1
    rw [u16Bytes_length] at hr2
    obtain ⟨hc3, hr3⟩ := bytesAt_split hr2
    rw [u16Bytes_length] at hr3
    obtain ⟨hc4, hr4⟩ := bytesAt_split hr3
    rw [u32Bytes_length] at hr4
    obtain ⟨hc5, hc6⟩ := bytesAt_split hr4
    rw [u16Bytes_length] at hc6
    simp only [DnsRecord.read]
    rw [read_qname_spec hB hvd hc1]
    dsimp only
    rw [read_u16_spec hB (by omega) hc2]
    dsimp only
    rw [read_u16_spec hB (by omega) hc3]
    dsimp only
    rw [read_u32_spec hB ht32 hc4]
    dsimp only
    rw [read_u16_spec hB hens hc5]
    dsimp only
    rw [if_neg (by omega), if_neg (by omega), if_pos rfl,
      read_qname_spec hB hvn hc6]
    dsimp only
    refine congrArg Except.ok (Prod.ext ?_ ?_)
    · simp [DnsRecord.lower]
    · exact bbmk_eq rfl (by
        simp only [encRecord, List.length_append, u16Bytes_length,
          u32Bytes_length]
        omega)
  | MX d pref ex t =>
    obtain ⟨hvd, hpref, hvex, ht32⟩ := hwf
    have hb' : bytesAt B q (encQname d ++ (u16Bytes 15 ++ (u16Bytes 1 ++
        (u32Bytes t ++ (u16Bytes (2 + (encQname ex).length) ++
          (u16Bytes pref ++ encQname ex)))))) := by
      have he : encRecord (.MX d pref ex t) = encQname d ++ (u16Bytes 15 ++
          (u16Bytes 1 ++ (u32Bytes t ++ (u16Bytes (2 + (encQname ex).length) ++
            (u16Bytes pref ++ encQname ex))))) := by
        simp [encRecord, List.append_assoc]
      rwa [he] at hb
    have hens : 2 + (encQname ex).length < 65536 := by
      obtain ⟨hle, _⟩ := hb'
      simp only [List.length_append, u16Bytes_length, u32Bytes_length] at hle
      omega
    obtain ⟨hc1, hr1⟩ := bytesAt_split hb'
    obtain ⟨hc2, hr2⟩ := bytesAt_split hr1
    rw [u16Bytes_length] at hr2
    obtain ⟨hc3, hr3⟩ := bytesAt_split hr2
    rw [u16Bytes_length] at hr3
    obtain ⟨hc4, hr4⟩ := bytesAt_split hr3
    rw [u32Bytes_length] at hr4
    obtain ⟨hc5, hr5⟩ := bytesAt_split hr4
    rw [u16Bytes_length] at hr5
    obtain ⟨hc6, hc7⟩ := bytesAt_split hr5
    rw [u16Bytes_length] at hc7
    simp only [DnsRecord.read]
    rw [read_qname_spec hB hvd hc1]
    dsimp only
    rw [read_u16_spec hB (by omega) hc2]
    dsimp only
    rw [read_u16_spec hB (by omega) hc3]
    dsimp only
    rw [read_u32_spec hB ht32 hc4]
    dsimp only
    rw [read_u16_spec hB hens hc5]
    dsimp only
    rw [if_neg (by omega), if_neg (by omega), if_neg (by omega), if_pos rfl,
      read_u16_spec hB hpref hc6]
    dsimp only
    rw [read_qname_spec hB hvex hc7]
    dsimp only
    refine congrArg Except.ok (Prod.ext ?_ ?_)
    · simp [DnsRecord.lower]
    · exact bbmk_eq rfl (by
        simp only [encRecord, List.length_append, u16Bytes_length,
          u32Bytes_length]
        omega)
  | AAAA d addr t =>
    obtain ⟨hvd, haddr16, haddrb, ht32⟩ := hwf
    have hb' : bytesAt B q (encQname d ++ (u16Bytes 28 ++ (u16Bytes 1 ++
        (u32Bytes t ++ (u16Bytes 16 ++ addr))))) := by
      have he : encRecord (.AAAA d addr t) = encQname d ++ (u16Bytes 28 ++
          (u16Bytes 1 ++ (u32Bytes t ++ (u16Bytes 16 ++ addr)))) := by
        simp [encRecord, List.append_assoc]
      rwa [he] at hb
    obtain ⟨hc1, hr1⟩ := bytesAt_split hb'
    obtain ⟨hc2, hr2⟩ := bytesAt_split hr1
    rw [u16Bytes_length] at hr2
    obtain ⟨hc3, hr3⟩ := bytesAt_split hr2
    rw [u16Bytes_length] at hr3
    obtain ⟨hc4, hr4⟩ := bytesAt_split hr3
    rw [u32Bytes_length] at hr4
    obtain ⟨hc5, hc6⟩ := bytesAt_split hr4
    rw [u16Bytes_length] at hc6
    simp only [DnsRecord.read]
    rw [read_qname_spec hB hvd hc1]
    dsimp only
    rw [read_u16_spec hB (by omega) hc2]
    dsimp only
    rw [read_u16_spec hB (by omega) hc3]
    dsimp only
    rw [read_u32_spec hB ht32 hc4]
    dsimp only
    rw [read_u16_spec hB (by omega) hc5]
    dsimp only
    rw [if_neg (by omega), if_neg (by omega), if_neg (by omega),
      if_neg (by omega), if_pos rfl]
    rw [show (16 : Nat) = addr.length from haddr16.symm,
      readBytes_spec addr hB hc6]
    dsimp only
    refine congrArg Except.ok (Prod.ext ?_ ?_)
    · simp [DnsRecord.lower]
    · exact bbmk_eq rfl (by
        simp only [encRecord, List.length_append, u16Bytes_length,
          u32Bytes_length]
        omega)

theorem readQuestions_spec : ∀ (qs : List DnsQuestion) {B : List Nat} {q : Nat},
    B.length = 512 → (∀ qu ∈ qs, qu.WF) →
    bytesAt B q (encList encQuestion qs) →
    readQuestions qs.length ⟨B, q⟩ =
      .ok (qs.map DnsQuestion.lower, ⟨B, q + (encList encQuestion qs).length⟩)
  | [], B, q, hB, hwf, hb => by
    simp only [List.length_nil, readQuestions, List.map_nil, encList_nil,
      Nat.add_zero]
  | qu :: qs, B, q, hB, hwf, hb => by
    rw [encList_cons] at hb
    obtain ⟨hc1, hr1⟩ := bytesAt_split hb
    simp only [List.length_cons, readQuestions, List.map_cons]
    rw [question_read_spec hB (hwf qu (List.mem_cons_self qu qs)) hc1]
    dsimp only
    rw [readQuestions_spec qs hB
      (fun x hx => hwf x (List.mem_cons_of_mem _ hx)) hr1]
    dsimp only
    refine congrArg Except.ok (Prod.ext rfl ?_)
    exact bbmk_eq rfl (by simp only [encList_cons, List.length_append]; omega)

theorem readRecords_spec : ∀ (rs : List DnsRecord) {B : List Nat} {q : Nat},
    B.length = 512 → (∀ r ∈ rs, r.WF) →
    bytesAt B q (encList encRecord rs) →
    readRecords rs.length ⟨B, q⟩ =
      .ok (rs.map DnsRecord.lower, ⟨B, q + (encList encRecord rs).length⟩)
  | [], B, q, hB, hwf, hb => by
    simp only [List.length_nil, readRecords, List.map_nil, encList_nil,
      Nat.add_zero]
  | r :: rs, B, q, hB, hwf, hb => by
    rw [encList_cons] at hb
    obtain ⟨hc1, hr1⟩ := bytesAt_split hb
    simp only [List.length_cons, readRecords, List.map_cons]
    rw [record_read_spec hB (hwf r (List.mem_cons_self r rs)) hc1]
    dsimp only
    rw [readRecords_spec rs hB
      (fun x hx => hwf x (List.mem_cons_of_mem _ hx)) hr1]
    dsimp only
    refine congrArg Except.ok (Prod.ext rfl ?_)
    exact bbmk_eq rfl (by simp only [encList_cons, List.length_append]; omega)

theorem from_buffer_spec {B : List Nat} {q : Nat} {pk : DnsPacket}
    (hB : B.length = 512) (hwf : pk.WF) (hcm : pk.countsMatch)
    (hb : bytesAt B q (encPacket pk)) :
    DnsPacket.from_buffer ⟨B, q⟩ = .ok pk.lowerNames := by
  obtain ⟨hhwf, hqwf, hawf, hauwf, hrwf⟩ := hwf
  obtain ⟨hcq, hca, hcau, hcr⟩ := hcm
  have hb' : bytesAt B q (encHeader pk.header ++
      (encList encQuestion pk.questions ++ (encList encRecord pk.answers ++
      (encList encRecord pk.authorities ++ encList encRecord pk.resources)))) := by
    have he : encPacket pk = encHeader pk.header ++
        (encList encQuestion pk.questions ++ (encList encRecord pk.answers ++
        (encList encRecord pk.authorities ++
          encList encRecord pk.resources))) := by
      simp [encPacket, List.append_assoc]
    rwa [he] at hb
  obtain ⟨hc1, hr1⟩ := bytesAt_split hb'
  rw [encHeader_length] at hr1
  obtain ⟨hc2, hr2⟩ := bytesAt_split hr1
  obtain ⟨hc3, hr3⟩ := bytesAt_split hr2
  obtain ⟨hc4, hc5⟩ := bytesAt_split hr3
  simp only [DnsPacket.from_buffer]
  rw [header_read_spec hB hhwf hc1]
  dsimp only
  rw [hcq, hca, hcau, hcr]
  rw [readQuestions_spec pk.questions hB hqwf hc2]
  dsimp only
  rw [readRecords_spec pk.answers hB hawf hc3]
  dsimp only
  rw [readRecords_spec pk.authorities hB hauwf hc4]
  dsimp only
  rw [readRecords_spec pk.resources hB hrwf hc5]
  dsimp only
  rw [DnsPacket.lowerNames]

/-- C7: the round-trip claim as stated is false: `c7name` has eight
    63-character ASCII labels (a valid qname), but its encoding needs 513
    bytes, so `write_qname` overflows the 512-byte frame and reading back
    from position 0 fails with BufferOverflow instead of returning the
    lowercased name. -/
theorem c7_qname_roundtrip_counterexample :
    ValidQname c7name ∧
    ((ByteBuffer.new.write_qname c7name).2.seek 0).read_qname =
      .error .bufferOverflow := by
  constructor
  · unfold ValidQname
    decide
  · decide

/-- C7 (amended): if additionally the encoding of the qname fits in the
    512-byte frame, writing it into a fresh buffer and reading back from
    position 0 yields the lowercased name (and the cursor ends right after
    the encoding). -/
theorem c7_qname_roundtrip_amended {s : RStr} (hv : ValidQname s)
    (hfit : (encQname s).length ≤ 512) :
    ((ByteBuffer.new.write_qname s).2.seek 0).read_qname =
      .ok (lowerStr s,
        ⟨spliceAt (List.replicate 512 0) 0 (encQname s),
          (encQname s).length⟩) := by
  have h0 : ByteBuffer.new = ⟨spliceAt (List.replicate 512 0) 0 [], 0⟩ := by
    simp [ByteBuffer.new, spliceAt]
  rw [h0, write_qname_chain (by simp) (by simp) (by simp; omega)]
  dsimp only
  simp only [ByteBuffer.seek]
  rw [List.nil_append]
  have hB : (spliceAt (List.replicate 512 0) 0 (encQname s)).length = 512 := by
    rw [length_spliceAt (by simp; omega)]
    simp
  rw [read_qname_spec hB hv (bytesAt_spliceAt (by simp; omega))]
  rw [Nat.zero_add]

theorem c7_qname_roundtrip_amended_witness :
    ValidQname [97] ∧ (encQname [97]).length ≤ 512 ∧
    ((ByteBuffer.new.write_qname [97]).2.seek 0).read_qname =
      .ok (lowerStr [97],
        ⟨spliceAt (List.replicate 512 0) 0 (encQname [97]),
          (encQname [97]).length⟩) :=
  ⟨by unfold ValidQname; decide, by decide,
    c7_qname_roundtrip_amended (by unfold ValidQname; decide) (by decide)⟩

/-- C2: the round-trip claim as stated is false: `c2cex` has matching
    counts and a fitting encoding, but its only answer is an UNKNOWN
    record, which `DnsRecord::write` silently skips; decoding the written
    frame therefore reads a zero-filled record (`c2dec`) instead of the
    original answer, so decode ∘ encode is not the identity modulo
    lowercasing. -/
theorem c2_roundtrip_counterexample :
    c2cex.countsMatch ∧ (encPacket c2cex).length ≤ 512 ∧
    DnsPacket.from_buffer ⟨(DnsPacket.write c2cex ByteBuffer.new).buffer, 0⟩ =
      .ok c2dec ∧
    c2dec ≠ c2cex.lowerNames := by
  refine ⟨?_, ?_, ?_, ?_⟩
  · unfold DnsPacket.countsMatch
    decide
  · decide
  · decide
  · decide

/-- C2 (amended): for a packet whose records are all of known type with
    in-range fields and valid names (`DnsPacket.WF`), whose section counts
    match the header, and whose encoding fits the frame, decoding the
    written frame returns the packet with every qname lowercased. -/
theorem c2_roundtrip_amended {p : DnsPacket} (hwf : p.WF) (hcm : p.countsMatch)
    (hfit : (encPacket p).length ≤ 512) :
    DnsPacket.from_buffer ⟨(DnsPacket.write p ByteBuffer.new).buffer, 0⟩ =
      .ok p.lowerNames := by
  rw [packet_write_new hfit]
  dsimp only
  have hB : (spliceAt (List.replicate 512 0) 0 (encPacket p)).length = 512 := by
    rw [length_spliceAt (by simp; omega)]
    simp
  exact from_buffer_spec hB hwf hcm (bytesAt_spliceAt (by simp; omega))

theorem c2_roundtrip_amended_witness :
    c2wit.WF ∧ c2wit.countsMatch ∧ (encPacket c2wit).length ≤ 512 ∧
    DnsPacket.from_buffer ⟨(DnsPacket.write c2wit ByteBuffer.new).buffer, 0⟩ =
      .ok c2wit.lowerNames :=
  ⟨by decide, by decide, by decide,
   c2_roundtrip_amended (by decide) (by decide) (by decide)⟩

theorem take_spliceAt_zero {B bs : List Nat} :
    (spliceAt B 0 bs).take bs.length = bs := by
  simp only [spliceAt, List.take_zero, List.nil_append, Nat.zero_add]
  exact List.take_left' rfl

/-- C1: a request with zero questions makes `handle_query` send exactly one
    reply that decodes to a header with RCODE=FORMERR, the request's id and
    QR=1 — but the handler then panics at `response.questions[0]`
    (main.rs:210), so the "does not crash" half of the claim is false. -/
theorem c1_zero_questions_formerr_panic {env : HQEnv} {cache : DnsCache}
    {enable_cache : Bool} {request : DnsPacket}
    (hq0 : request.questions = []) (hid : request.header.id < 65536) :
    ∃ sent bb h,
      handle_query env cache enable_cache request = .panicked [sent] ∧
      ByteBuffer.fromBytes sent = some bb ∧
      DnsHeader.read bb = .ok (h, ⟨bb.buffer, 12⟩) ∧
      h.rescode = .FORMERR ∧ h.id = request.header.id ∧ h.response = true := by
  refine ⟨encHeader ⟨request.header.id, true, false, false, 0, true, .FORMERR,
      false, false, false, true, 0, 0, 0, 0⟩,
    ⟨encHeader ⟨request.header.id, true, false, false, 0, true, .FORMERR,
      false, false, false, true, 0, 0, 0, 0⟩ ++ List.replicate 500 0, 0⟩,
    ⟨request.header.id, true, false, false, 0, true, .FORMERR,
      false, false, false, true, 0, 0, 0, 0⟩, ?_, ?_, ?_, rfl, rfl, rfl⟩
  · have henc : encPacket ⟨⟨request.header.id, true, false, false, 0, true,
        .FORMERR, false, false, false, true, 0, 0, 0, 0⟩, [], [], [], []⟩ =
        encHeader ⟨request.header.id, true, false, false, 0, true, .FORMERR,
          false, false, false, true, 0, 0, 0, 0⟩ := by
      simp [encPacket, encList]
    simp only [handle_query, hq0, List.getLast?_nil]
    dsimp only [DnsPacket.new, DnsHeader.new]
    simp only [hqFinish]
    rw [packet_write_new (by rw [henc, encHeader_length]; omega)]
    dsimp only
    rw [henc, take_spliceAt_zero]
    simp only [List.head?_nil]
  · rw [ByteBuffer.fromBytes, if_pos (by rw [encHeader_length]; omega)]
    rw [encHeader_length]
  · have hB : (encHeader ⟨request.header.id, true, false, false, 0, true,
        .FORMERR, false, false, false, true, 0, 0, 0, 0⟩ ++
        List.replicate 500 0).length = 512 := by
      simp [encHeader_length]
    dsimp only
    exact header_read_spec hB
      ⟨hid, by dsimp only; omega, by dsimp only; omega, by dsimp only; omega,
        by dsimp only; omega, by dsimp only; omega⟩
      bytesAt_of_prefix

theorem c1_zero_questions_formerr_panic_witness :
    ∃ sent bb h,
      handle_query ⟨fun _ _ => Except.error (), 0⟩ (DnsCache.new 5) false
        DnsPacket.new = .panicked [sent] ∧
      ByteBuffer.fromBytes sent = some bb ∧
      DnsHeader.read bb = .ok (h, ⟨bb.buffer, 12⟩) ∧
      h.rescode = .FORMERR ∧ h.id = DnsPacket.new.header.id ∧
      h.response = true :=
  c1_zero_questions_formerr_panic rfl (by decide)
